import Mathlib

/-!
# Verification of the jsonschema library core

A shallow embedding, in Lean 4, of the core of the `jsonschema` Go library:
the schema data model, the tree walker (`walk.go`), the identifier engine
(`identifiers.go`), the reference resolver (`resolve.go`), the JSON-pointer
helpers (`jsonptr/ptr.go`, `ptr.go`), and the JSON wire form
(`MarshalJSON`/`UnmarshalJSON`).

Modelling conventions:

* Go structs become Lean structures; `*Schema` fields become `Option Schema`;
  Go slices become `List`; Go maps become insertion-ordered association lists
  (`List (String × _)`).  Go map iteration order is unspecified; the embedding
  fixes the insertion order, and theorems that would depend on iteration order
  take hypotheses that make the order irrelevant.
* Mutation through pointers is modelled by explicit value threading: the walker
  returns the (possibly rewritten) tree, and every Go statement that writes a
  schema value through a shared pointer is additionally logged as a
  `(before, after)` event so that frame properties are statements about the
  event log, not artifacts of the pure embedding.
* Go functions whose recursion is not structurally bounded in the source
  (the mutually recursive `ResolveReference`/`resolveRef`, the walker with a
  rewriting visitor, and `ComputeIdentifiers`) take an explicit fuel argument.
* `net/url` is modelled component-wise (scheme, host, path, query, fragment)
  without percent-escaping; `resolvePath` follows RFC 3986 §5.2.4 with Go's
  always-rooted output.  `url.Parse` is modelled as total: the rare Go parse
  errors (invalid percent escapes, control characters) are outside the scope
  of the claims checked here.
* `context.Context` cancellation is modelled by a boolean `cancelled` flag
  threaded to the walker; the claims below never exercise cancellation.
-/

namespace JsonSchemaProof

/-! ## JSON leaf values (the Go `any` payloads of `enum`, `const`, ...) -/

inductive JVal where
  | null
  | bool (b : Bool)
  | num (s : String)
  | str (s : String)
  | arr (elems : List JVal)
  | obj (members : List (String × JVal))

/-! ## The schema model

Field-for-field translation of the `Schema` struct (`resolve.go` /
`walk.go` revision: the struct there additionally carries `$anchor`,
`unevaluatedItems`, `unevaluatedProperties` and `contentSchema`, which the
walker traverses).  Non-subschema members live in `SchemaLeaf`; members that
contain subschemas live in `SchemaCore`, parameterised so that `Schema` can
be the nested inductive `Schema.mk : SchemaCore Schema → Schema`. -/

structure SchemaLeaf where
  schemaKw : String := ""
  vocabulary : List (String × Bool) := []
  id : String := ""
  ref : String := ""
  dynamicRef : String := ""
  anchor : String := ""
  comment : String := ""
  typeSet : Option (List String) := none
  enum : Option (List JVal) := none
  constV : Option JVal := none
  multipleOf : Option String := none
  maximum : Option String := none
  exclusiveMaximum : Option String := none
  minimum : Option String := none
  exclusiveMinimum : Option String := none
  maxLength : Option Int := none
  minLength : Option Int := none
  pattern : Option String := none
  maxItems : Option Int := none
  minItems : Option Int := none
  uniqueItems : Option Bool := none
  maxContains : Option Int := none
  minContains : Option Int := none
  maxProperties : Option Int := none
  minProperties : Option Int := none
  required : Option (List String) := none
  dependentRequired : Option (List (String × List String)) := none
  title : String := ""
  description : String := ""
  defaultV : Option JVal := none
  deprecated : Option Bool := none
  readOnly : Option Bool := none
  writeOnly : Option Bool := none
  examples : List JVal := []

structure SchemaCore (S : Type) where
  leaf : SchemaLeaf := {}
  defs : List (String × S) := []
  allOf : List S := []
  anyOf : List S := []
  oneOf : List S := []
  notS : Option S := none
  ifS : Option S := none
  thenS : Option S := none
  elseS : Option S := none
  dependentSchemas : List (String × S) := []
  prefixItems : List S := []
  items : Option S := none
  containsS : Option S := none
  properties : List (String × S) := []
  patternProperties : List (String × S) := []
  additionalProperties : Option S := none
  propertyNames : Option S := none
  unevaluatedItems : Option S := none
  unevaluatedProperties : Option S := none
  contentSchema : Option S := none

inductive Schema where
  | mk (core : SchemaCore Schema)

def Schema.core : Schema → SchemaCore Schema
  | .mk c => c

@[simp] theorem Schema.core_mk (c : SchemaCore Schema) : (Schema.mk c).core = c := rfl

theorem Schema.mk_core (s : Schema) : Schema.mk s.core = s := by
  cases s
  rfl

/-- The empty (canonically `true`) schema. -/
def Schema.empty : Schema := .mk {}

def Schema.id (s : Schema) : String := s.core.leaf.id
def Schema.ref (s : Schema) : String := s.core.leaf.ref
def Schema.anchor (s : Schema) : String := s.core.leaf.anchor
def Schema.defs (s : Schema) : List (String × Schema) := s.core.defs
def Schema.allOf (s : Schema) : List Schema := s.core.allOf
def Schema.anyOf (s : Schema) : List Schema := s.core.anyOf
def Schema.oneOf (s : Schema) : List Schema := s.core.oneOf
def Schema.notS (s : Schema) : Option Schema := s.core.notS
def Schema.ifS (s : Schema) : Option Schema := s.core.ifS
def Schema.thenS (s : Schema) : Option Schema := s.core.thenS
def Schema.elseS (s : Schema) : Option Schema := s.core.elseS
def Schema.dependentSchemas (s : Schema) : List (String × Schema) := s.core.dependentSchemas
def Schema.prefixItems (s : Schema) : List Schema := s.core.prefixItems
def Schema.items (s : Schema) : Option Schema := s.core.items
def Schema.containsS (s : Schema) : Option Schema := s.core.containsS
def Schema.properties (s : Schema) : List (String × Schema) := s.core.properties
def Schema.patternProperties (s : Schema) : List (String × Schema) := s.core.patternProperties
def Schema.additionalProperties (s : Schema) : Option Schema := s.core.additionalProperties
def Schema.propertyNames (s : Schema) : Option Schema := s.core.propertyNames
def Schema.unevaluatedItems (s : Schema) : Option Schema := s.core.unevaluatedItems
def Schema.unevaluatedProperties (s : Schema) : Option Schema := s.core.unevaluatedProperties
def Schema.contentSchema (s : Schema) : Option Schema := s.core.contentSchema

/-- `schema.ID = v` (the one field write the identifier engine performs, on its
local weak copy). -/
def Schema.withId (s : Schema) (v : String) : Schema :=
  .mk { s.core with leaf := { s.core.leaf with id := v } }

/-! ## Association lists: the model of Go maps

`alSet` is Go map assignment `m[k] = v` (overwrite if present, else append);
`alGet` is Go map lookup `m[k]`. -/

def alSet {α : Type} : List (String × α) → String → α → List (String × α)
  | [], k, v => [(k, v)]
  | (k0, v0) :: t, k, v =>
    if k0 = k then (k0, v) :: t else (k0, v0) :: alSet t k v

def alGet {α : Type} : List (String × α) → String → Option α
  | [], _ => none
  | (k0, v0) :: t, k => if k0 = k then some v0 else alGet t k

/-! ## Character-level string helpers (the `strings` package subset used) -/

/-- `strings.Split(s, sep)` for a one-character separator, on char lists.
The result is always non-empty; splitting the empty list yields `[[]]`. -/
def splitCh (sep : Char) : List Char → List (List Char)
  | [] => [[]]
  | c :: cs =>
    if c = sep then [] :: splitCh sep cs
    else
      match splitCh sep cs with
      | h :: t => (c :: h) :: t
      | [] => [[c]]

/-- Join char-list segments with a one-character separator (inverse of `splitCh`). -/
def joinCh (sep : Char) : List (List Char) → List Char
  | [] => []
  | [x] => x
  | x :: y :: t => x ++ sep :: joinCh sep (y :: t)

/-- `strings.Cut(s, sep)` for a one-character separator:
`(before, after, found)`. -/
def cutCh (sep : Char) : List Char → List Char × List Char × Bool
  | [] => ([], [], false)
  | c :: cs =>
    if c = sep then ([], cs, true)
    else
      match cutCh sep cs with
      | (b, a, f) => (c :: b, a, f)

/-- Replace every (left-to-right, non-overlapping) occurrence of the
two-character pattern `a b` by `rep` (`strings.ReplaceAll` for the two-char
patterns `~0`/`~1` used by `getUnescapedPath`). -/
def replacePair (a b : Char) (rep : List Char) : List Char → List Char
  | [] => []
  | [c] => [c]
  | c :: d :: rest =>
    if c = a ∧ d = b then rep ++ replacePair a b rep rest
    else c :: replacePair a b rep (d :: rest)

def goSplit (sep : Char) (s : String) : List String :=
  (splitCh sep s.data).map String.mk

/-- `strings.TrimPrefix(s, "/")`: drop one leading occurrence of `c`. -/
def dropLeadCh (c : Char) (s : List Char) : List Char :=
  match s with
  | [] => []
  | d :: t => if d = c then t else d :: t

/-- `strings.TrimSuffix(s, "/")`: drop one trailing occurrence of `c`. -/
def dropTrailCh (c : Char) (s : List Char) : List Char :=
  (dropLeadCh c s.reverse).reverse

def isAsciiLetter (c : Char) : Bool :=
  ('a' ≤ c ∧ c ≤ 'z') ∨ ('A' ≤ c ∧ c ≤ 'Z')

def isAsciiDigit (c : Char) : Bool :=
  '0' ≤ c ∧ c ≤ '9'

def toLowerCh (c : Char) : Char :=
  if 'A' ≤ c ∧ c ≤ 'Z' then Char.ofNat (c.toNat + 32) else c

/-! ## `path.Clean` and `path.Join` (used by the walker to build pointers) -/

/-- The segment processing of `path.Clean`: drop empty and `.` segments,
let `..` pop the last retained segment (at the root, extra `..` are dropped;
in a relative path they are retained). -/
def cleanSegsAux (rooted : Bool) : List (List Char) → List (List Char) → List (List Char)
  | stack, [] => stack
  | stack, seg :: rest =>
    if seg = [] ∨ seg = ['.'] then cleanSegsAux rooted stack rest
    else if seg = ['.', '.'] then
      if stack ≠ [] ∧ stack.getLast? ≠ some ['.', '.'] then
        cleanSegsAux rooted stack.dropLast rest
      else if rooted then cleanSegsAux rooted stack rest
      else cleanSegsAux rooted (stack ++ [seg]) rest
    else cleanSegsAux rooted (stack ++ [seg]) rest

/-- `path.Clean` (the slash-only `path` package, not `filepath`). -/
def pathClean (s : String) : String :=
  if s = "" then "."
  else
    let cs := s.data
    let rooted := cs.head? = some '/'
    let segs := splitCh '/' cs
    let stack := cleanSegsAux rooted [] segs
    if rooted then
      if stack = [] then "/" else String.mk ('/' :: joinCh '/' stack)
    else
      if stack = [] then "." else String.mk (joinCh '/' stack)

/-- `path.Join(p, q)`: join the non-empty arguments with `/` and `Clean`. -/
def pathJoin (p q : String) : String :=
  if p = "" ∧ q = "" then ""
  else if p = "" then pathClean q
  else if q = "" then pathClean p
  else pathClean (String.mk (p.data ++ '/' :: q.data))

/-! ## The `net/url` model

A `GoURL` carries the components used by the library (no user info, no
percent-escaping, queries carried verbatim). -/

structure GoURL where
  scheme : String := ""
  opq : String := ""
  host : String := ""
  omitHost : Bool := false
  path : String := ""
  forceQuery : Bool := false
  query : String := ""
  fragment : String := ""
deriving DecidableEq, Repr

def GoURL.isAbs (u : GoURL) : Bool := u.scheme ≠ ""

/-- `getScheme`: split `scheme:rest` when the prefix before `:` is a valid
scheme (letter first, then letters/digits/`+-.`). Returns `none` when the
input has no scheme part. -/
def getSchemeAux (acc : List Char) : List Char → Option (List Char × List Char)
  | [] => none
  | c :: cs =>
    if isAsciiLetter c then getSchemeAux (acc ++ [c]) cs
    else if isAsciiDigit c ∨ c = '+' ∨ c = '-' ∨ c = '.' then
      if acc = [] then none else getSchemeAux (acc ++ [c]) cs
    else if c = ':' then
      if acc = [] then none else some (acc, cs)
    else none

def getScheme (s : List Char) : Option (List Char × List Char) :=
  getSchemeAux [] s

/-- `url.Parse`, modelled as total (Go's rare parse errors are out of scope).
Follows the structure of `net/url.parse` with `viaRequest = false`:
fragment split, scheme split (lowercased), query split (with the trailing-`?`
`ForceQuery` case), opaque (rootless path after a scheme), authority
(`//host`), and the `OmitHost` flag for `scheme:/path`. -/
def urlParse (s : String) : GoURL :=
  let (beforeFrag, frag, _) := cutCh '#' s.data
  let (schemeCs, rest0) :=
    match getScheme beforeFrag with
    | some (sc, r) => (sc.map toLowerCh, r)
    | none => ([], beforeFrag)
  let (rest1, query, forceQ) :=
    if rest0.getLast? = some '?' ∧ ¬ (rest0.dropLast.contains '?') then
      (rest0.dropLast, [], true)
    else
      match cutCh '?' rest0 with
      | (b, a, _) => (b, a, false)
  let fragStr := String.mk frag
  let queryStr := String.mk query
  let schemeStr := String.mk schemeCs
  if rest1.head? ≠ some '/' then
    if schemeCs ≠ [] then
      { scheme := schemeStr, opq := String.mk rest1, forceQuery := forceQ,
        query := queryStr, fragment := fragStr }
    else
      { path := String.mk rest1, forceQuery := forceQ,
        query := queryStr, fragment := fragStr }
  else
    if (schemeCs ≠ [] ∨ ¬ (rest1.take 3 = ['/', '/', '/'])) ∧ rest1.take 2 = ['/', '/'] then
      let after := rest1.drop 2
      let (auth, rest2) :=
        match cutCh '/' after with
        | (b, a, true) => (b, '/' :: a)
        | (b, _, false) => (b, [])
      -- parseAuthority: the host is the part after the last `@` (no user model)
      let host := ((splitCh '@' auth).getLast? ).getD []
      { scheme := schemeStr, host := String.mk host, path := String.mk rest2,
        forceQuery := forceQ, query := queryStr, fragment := fragStr }
    else
      { scheme := schemeStr, omitHost := schemeCs ≠ [], path := String.mk rest1,
        forceQuery := forceQ, query := queryStr, fragment := fragStr }

/-- `net/url.resolvePath`, segment-wise (RFC 3986 §5.2, `merge` +
`remove_dot_segments`), with Go's always-rooted output. -/
def resolvePath (base ref : String) : String :=
  let bcs := base.data
  let rcs := ref.data
  let full :=
    if rcs = [] then bcs
    else if rcs.head? ≠ some '/' then
      -- base up to and including its last slash, then ref
      let pre := (dropWhileNotSlash bcs.reverse).reverse
      pre ++ rcs
    else rcs
  if full = [] then ""
  else
    let segs := splitCh '/' full
    let segs1 := if full.head? = some '/' then segs.tail else segs
    let stack := segs1.foldl
      (fun st seg =>
        if seg = ['.'] then st
        else if seg = ['.', '.'] then st.dropLast
        else st ++ [seg]) []
    let stack1 :=
      if segs1.getLast? = some ['.'] ∨ segs1.getLast? = some ['.', '.'] then
        stack ++ [[]]
      else stack
    String.mk ('/' :: joinCh '/' stack1)
where
  /-- drop chars up to (excluding) the first `/`; helper on the reversed base. -/
  dropWhileNotSlash : List Char → List Char
    | [] => []
    | c :: cs => if c = '/' then c :: cs else dropWhileNotSlash cs

/-- `(*URL).ResolveReference`, following the Go source: absolute/net-path
case, opaque case, the empty-path query/fragment inheritance, then the
abs-path/rel-path case via `resolvePath`. -/
def GoURL.resolveReference (u ref : GoURL) : GoURL :=
  let r0 := ref
  let r1 := if ref.scheme = "" then { r0 with scheme := u.scheme } else r0
  if ref.scheme ≠ "" ∨ ref.host ≠ "" then
    { r1 with path := resolvePath ref.path "" }
  else if ref.opq ≠ "" then
    { r1 with host := "", path := "" }
  else
    let r2 :=
      if ref.path = "" ∧ ¬ ref.forceQuery ∧ ref.query = "" then
        let r2a := { r1 with query := u.query }
        if ref.fragment = "" then { r2a with fragment := u.fragment } else r2a
      else r1
    { r2 with host := u.host, path := resolvePath u.path ref.path }

/-- `(*URL).String()` without percent-escaping. -/
def GoURL.toString (u : GoURL) : String :=
  let s1 : List Char := if u.scheme ≠ "" then u.scheme.data ++ [':'] else []
  let s2 : List Char :=
    if u.opq ≠ "" then s1 ++ u.opq.data
    else
      let hostPart : List Char :=
        if u.scheme ≠ "" ∨ u.host ≠ "" then
          if u.omitHost ∧ u.host = "" then []
          else
            (if u.host ≠ "" ∨ u.path ≠ "" then ['/', '/'] else []) ++ u.host.data
        else []
      let s1h := s1 ++ hostPart
      let pcs := u.path.data
      let s1hp :=
        s1h ++ (if pcs ≠ [] ∧ pcs.head? ≠ some '/' ∧ u.host ≠ "" then ['/'] else [])
      let dotSlash : List Char :=
        if s1hp = [] ∧ ((cutCh '/' pcs).1.contains ':') then ['.', '/'] else []
      s1hp ++ dotSlash ++ pcs
  let s3 := s2 ++ (if u.forceQuery ∨ u.query ≠ "" then '?' :: u.query.data else [])
  let s4 := s3 ++ (if u.fragment ≠ "" then '#' :: u.fragment.data else [])
  String.mk s4

/-- Clear the fragment (the `u2 := *uri; u2.Fragment = ""` step of the local
loader). -/
def GoURL.noFrag (u : GoURL) : GoURL := { u with fragment := "" }

/-! ## Resolver string helpers (`resolve.go`) -/

/-- `getUnescapedPath`: trim one leading and one trailing `/`, split on `/`,
then unescape `~0 → ~` before `~1 → /` (the source's order). `nil` is `[]`. -/
def getUnescapedPath (ref : String) : List String :=
  let r1 := dropLeadCh '/' ref.data
  let r2 := dropTrailCh '/' r1
  if r2 = [] then []
  else
    (splitCh '/' r2).map fun seg =>
      String.mk (replacePair '~' '1' ['/'] (replacePair '~' '0' ['~'] seg))

/-- `isRelative(path)`. -/
def isRelative (path : List String) : Bool :=
  path ≠ [] ∧ path.head? ≠ some "#"

/-- `strconv.Atoi`: optional sign, then a non-empty digit string.
(Go's range errors for 64-bit overflow are not modelled.) -/
def goAtoi (s : String) : Option Int :=
  match s.data with
  | [] => none
  | '+' :: ds => (digitsVal ds).map Int.ofNat
  | '-' :: ds => (digitsVal ds).map (fun n => -(Int.ofNat n))
  | ds => (digitsVal ds).map Int.ofNat
where
  digitsVal (ds : List Char) : Option Nat :=
    if ds = [] then none
    else ds.foldl
      (fun acc c => acc.bind fun n =>
        if isAsciiDigit c then some (n * 10 + (c.toNat - '0'.toNat)) else none)
      (some 0)

/-! ## The walker (`walk.go`)

Go's `nodes(schema)` returns, per child slot, a keyword path piece, a pointer
to the child, and a setter.  The embedding names the slots by `ChildKey`,
with `getChild`/`setChild` as the getter/setter and `keywordOf` as the
keyword path piece.  `writeThrough` records whether the visitor's pointer
writes reach the tree even when the walker does not call `n.set` (true for
pointer- and slice-backed children, false for map children, which the walker
visits through a local copy of the map value). -/

inductive ChildKey where
  | notK | ifK | thenK | elseK | itemsK | containsK
  | addPropsK | propNamesK | unevalItemsK | unevalPropsK | contentK
  | allOfK (i : Nat) | anyOfK (i : Nat) | oneOfK (i : Nat) | prefixItemsK (i : Nat)
  | defsK (name : String) | depSchemasK (name : String)
  | propsK (name : String) | patPropsK (name : String)
deriving DecidableEq, Repr

open ChildKey in
def getChild (s : Schema) (k : ChildKey) : Option Schema :=
  match k with
  | notK => s.core.notS
  | ifK => s.core.ifS
  | thenK => s.core.thenS
  | elseK => s.core.elseS
  | itemsK => s.core.items
  | containsK => s.core.containsS
  | addPropsK => s.core.additionalProperties
  | propNamesK => s.core.propertyNames
  | unevalItemsK => s.core.unevaluatedItems
  | unevalPropsK => s.core.unevaluatedProperties
  | contentK => s.core.contentSchema
  | allOfK i => s.core.allOf.get? i
  | anyOfK i => s.core.anyOf.get? i
  | oneOfK i => s.core.oneOf.get? i
  | prefixItemsK i => s.core.prefixItems.get? i
  | defsK n => alGet s.core.defs n
  | depSchemasK n => alGet s.core.dependentSchemas n
  | propsK n => alGet s.core.properties n
  | patPropsK n => alGet s.core.patternProperties n

open ChildKey in
def setChild (s : Schema) (k : ChildKey) (v : Schema) : Schema :=
  match k with
  | notK => .mk { s.core with notS := some v }
  | ifK => .mk { s.core with ifS := some v }
  | thenK => .mk { s.core with thenS := some v }
  | elseK => .mk { s.core with elseS := some v }
  | itemsK => .mk { s.core with items := some v }
  | containsK => .mk { s.core with containsS := some v }
  | addPropsK => .mk { s.core with additionalProperties := some v }
  | propNamesK => .mk { s.core with propertyNames := some v }
  | unevalItemsK => .mk { s.core with unevaluatedItems := some v }
  | unevalPropsK => .mk { s.core with unevaluatedProperties := some v }
  | contentK => .mk { s.core with contentSchema := some v }
  | allOfK i => .mk { s.core with allOf := s.core.allOf.set i v }
  | anyOfK i => .mk { s.core with anyOf := s.core.anyOf.set i v }
  | oneOfK i => .mk { s.core with oneOf := s.core.oneOf.set i v }
  | prefixItemsK i => .mk { s.core with prefixItems := s.core.prefixItems.set i v }
  | defsK n => .mk { s.core with defs := alSet s.core.defs n v }
  | depSchemasK n => .mk { s.core with dependentSchemas := alSet s.core.dependentSchemas n v }
  | propsK n => .mk { s.core with properties := alSet s.core.properties n v }
  | patPropsK n => .mk { s.core with patternProperties := alSet s.core.patternProperties n v }

open ChildKey in
def writeThrough (k : ChildKey) : Bool :=
  match k with
  | defsK _ | depSchemasK _ | propsK _ | patPropsK _ => false
  | _ => true

open ChildKey in
def keywordOf (k : ChildKey) : String :=
  match k with
  | notK => "not"
  | ifK => "if"
  | thenK => "then"
  | elseK => "else"
  | itemsK => "items"
  | containsK => "contains"
  | addPropsK => "additionalProperties"
  | propNamesK => "propertyNames"
  | unevalItemsK => "unevaluatedItems"
  | unevalPropsK => "unevaluatedProperties"
  | contentK => "contentSchema"
  | allOfK i => "allOf/" ++ toString i
  | anyOfK i => "anyOf/" ++ toString i
  | oneOfK i => "oneOf/" ++ toString i
  | prefixItemsK i => "prefixItems/" ++ toString i
  | defsK n => "$defs/" ++ n
  | depSchemasK n => "dependentSchemas/" ++ n
  | propsK n => "properties/" ++ n
  | patPropsK n => "patternProperties/" ++ n

/-- `nodes(s)`: the child slots of one schema, in the source's order
(the `children` table, then `allOf`/`anyOf`/`oneOf`/`prefixItems` by index,
then the four map keywords in declaration order; map iteration is modelled
by the association-list order). -/
def nodesKeys (s : Schema) : List ChildKey :=
  (if s.core.notS.isSome then [ChildKey.notK] else []) ++
  (if s.core.ifS.isSome then [ChildKey.ifK] else []) ++
  (if s.core.thenS.isSome then [ChildKey.thenK] else []) ++
  (if s.core.elseS.isSome then [ChildKey.elseK] else []) ++
  (if s.core.items.isSome then [ChildKey.itemsK] else []) ++
  (if s.core.containsS.isSome then [ChildKey.containsK] else []) ++
  (if s.core.additionalProperties.isSome then [ChildKey.addPropsK] else []) ++
  (if s.core.propertyNames.isSome then [ChildKey.propNamesK] else []) ++
  (if s.core.unevaluatedItems.isSome then [ChildKey.unevalItemsK] else []) ++
  (if s.core.unevaluatedProperties.isSome then [ChildKey.unevalPropsK] else []) ++
  (if s.core.contentSchema.isSome then [ChildKey.contentK] else []) ++
  ((List.range s.core.allOf.length).map ChildKey.allOfK) ++
  ((List.range s.core.anyOf.length).map ChildKey.anyOfK) ++
  ((List.range s.core.oneOf.length).map ChildKey.oneOfK) ++
  ((List.range s.core.prefixItems.length).map ChildKey.prefixItemsK) ++
  (s.core.defs.map fun kv => ChildKey.defsK kv.1) ++
  (s.core.dependentSchemas.map fun kv => ChildKey.depSchemasK kv.1) ++
  (s.core.properties.map fun kv => ChildKey.propsK kv.1) ++
  (s.core.patternProperties.map fun kv => ChildKey.patPropsK kv.1)

/-- Visitor return code: `nil`, `Skip`, `SkipAll`, or any other error. -/
inductive VCode where
  | cont
  | skip
  | skipAll
  | fail (e : String)

/-- Walk errors surfaced to the caller: context cancellation, a visitor
error, or (embedding-only) fuel exhaustion. -/
inductive WErr where
  | cancelledErr
  | fuelOut
  | userErr (e : String)
deriving DecidableEq, Repr

/-- A visitor with threaded state `σ`.  It receives the pointer and the
current child value and returns a control code, the (possibly rewritten)
schema — modelling writes through the `*Schema` handle — and its new state. -/
def VisitorM (σ : Type) : Type :=
  String → Schema → σ → VCode × Schema × σ

/-- One `(before, after)` event per slot visit: the value the slot held when
the visitor was called and the value it holds after the visitor (and the
walker's `n.set`) are done.  A run that never changes a schema produces only
reflexive events. -/
abbrev MutEvent : Type := Schema × Schema

/-- The loop of `walkRec` over `nodes(schema)`, parameterised by the
descent function (which the walker instantiates with itself at one less
fuel).  Per child: call the visitor; on `Skip` continue with the next
sibling (suppressing the subtree); on `SkipAll` return `nil` from this loop
(which is exactly what the source does: the enclosing recursion treats it as
success and walks on); on another error stop and propagate; otherwise
`n.set` the (possibly replaced) child and descend into it.  Visitor writes
reach the tree without `n.set` only for `writeThrough` slots. -/
def walkChildrenWith {σ : Type}
    (descendFn : String → Schema → σ → Option WErr × Schema × σ × List MutEvent)
    (vf : VisitorM σ) :
    String → Schema → σ → List ChildKey → Option WErr × Schema × σ × List MutEvent
  | _, s, st, [] => (none, s, st, [])
  | ptr, s, st, k :: rest =>
    match getChild s k with
    | none => walkChildrenWith descendFn vf ptr s st rest
    | some c =>
      let cptr := pathJoin ptr (keywordOf k)
      let (code, c1, st1) := vf cptr c st
      match code with
      | .fail e =>
        let s1 := if writeThrough k then setChild s k c1 else s
        let ev : List MutEvent := if writeThrough k then [(c, c1)] else []
        (some (.userErr e), s1, st1, ev)
      | .skipAll =>
        let s1 := if writeThrough k then setChild s k c1 else s
        let ev : List MutEvent := if writeThrough k then [(c, c1)] else []
        (none, s1, st1, ev)
      | .skip =>
        let s1 := if writeThrough k then setChild s k c1 else s
        let ev : List MutEvent := if writeThrough k then [(c, c1)] else []
        let (err2, s2, st2, ev2) := walkChildrenWith descendFn vf ptr s1 st1 rest
        (err2, s2, st2, ev ++ ev2)
      | .cont =>
        let s1 := setChild s k c1
        let (err2, c2, st2, ev2) := descendFn cptr c1 st1
        let s2 := setChild s1 k c2
        match err2 with
        | some e => (some e, s2, st2, (c, c1) :: ev2)
        | none =>
          let (err3, s3, st3, ev3) := walkChildrenWith descendFn vf ptr s2 st2 rest
          (err3, s3, st3, (c, c1) :: (ev2 ++ ev3))

/-- `walkRec` (the context check, then the loop over `nodes(schema)`).
Fuel is consumed at each descent; exhaustion surfaces as `.fuelOut`. -/
def walkRec {σ : Type} : Nat → Bool → String → Schema → VisitorM σ → σ →
    Option WErr × Schema × σ × List MutEvent
  | fuel, cancelled, ptr, s, vf, st =>
    if cancelled then (some .cancelledErr, s, st, [])
    else
      walkChildrenWith
        (fun cptr c st1 =>
          match fuel with
          | 0 => (some .fuelOut, c, st1, [])
          | f + 1 => walkRec f cancelled cptr c vf st1)
        vf ptr s st (nodesKeys s)

/-- `Walk`: visit the root at pointer `"/"`, mapping `Skip`/`SkipAll` to
success, then descend. -/
def Walk {σ : Type} (fuel : Nat) (cancelled : Bool) (s : Schema)
    (vf : VisitorM σ) (st : σ) : Option WErr × Schema × σ × List MutEvent :=
  let (code, s1, st1) := vf "/" s st
  match code with
  | .fail e => (some (.userErr e), s1, st1, [(s, s1)])
  | .skip => (none, s1, st1, [(s, s1)])
  | .skipAll => (none, s1, st1, [(s, s1)])
  | .cont =>
    let (err2, s2, st2, ev2) := walkRec fuel cancelled "/" s1 vf st1
    (err2, s2, st2, (s, s1) :: ev2)

/-! ## The identifier engine (`identifiers.go`) -/

structure Identifiers where
  baseURI : String := ""
  canonResourcePlainURI : String := ""
  canonResourcePointerURI : String := ""
  enclosingResourceURIs : List String := []
deriving DecidableEq, Repr

/-- The visitor state of `ComputeIdentifiers`: the accumulated map `m`
plus the mutation events of the nested recursive computations. -/
abbrev IdSt : Type := List (String × Identifiers) × List MutEvent

/-- The body of the `WalkFunc` closure in `ComputeIdentifiers`,
parameterised by the recursive sub-computation.  It works on a weak copy of
the visited schema (so it returns the schema unchanged) and accumulates
into `m`.  At a non-root `$id` node it resolves the `$id` against the
enclosing base, recurses on the subtree as its own root, re-homes every
inner record `k → v` to `ptr ++ k` while pushing the outer pointer URI into
`v.enclosingResourceURIs`, gives the node itself
`canonical_pointer_uri = base_uri ++ "#"`, and returns `Skip`. -/
def idVisitWith
    (subCompute : Schema → List (String × Identifiers) × Option String × List MutEvent)
    (base : GoURL) : VisitorM IdSt :=
  fun ptr s st =>
    let m := st.1
    let evs := st.2
    if ptr = "/" ∨ (s.id = "" ∧ s.anchor = "") then (.cont, s, (m, evs))
    else
      if s.id ≠ "" then
        let idu := urlParse s.id
        let resolved := (base.resolveReference idu).toString
        let schema2 := s.withId resolved
        let sub := subCompute schema2
        let m2 := sub.1
        let m1 := m2.foldl
          (fun acc kv =>
            let encURI := base.toString ++ "#" ++ ptr ++ kv.1
            alSet acc (ptr ++ kv.1)
              { kv.2 with
                enclosingResourceURIs := kv.2.enclosingResourceURIs ++ [encURI] })
          m
        let ids0 : Identifiers :=
          { baseURI := resolved, canonResourcePointerURI := resolved ++ "#" }
        let ids1 :=
          if s.anchor ≠ "" then
            { ids0 with canonResourcePlainURI := ids0.baseURI ++ "#" ++ s.anchor }
          else ids0
        let ids2 :=
          if base.toString ++ "#" ++ ptr ≠ ids1.canonResourcePointerURI then
            { ids1 with enclosingResourceURIs :=
                ids1.enclosingResourceURIs ++ [base.toString ++ "#" ++ ptr] }
          else ids1
        (.skip, s, (alSet m1 ptr ids2, evs ++ sub.2.2))
      else
        let ids0 : Identifiers :=
          { baseURI := base.toString,
            canonResourcePointerURI := base.toString ++ "#" ++ ptr }
        let ids1 :=
          if s.anchor ≠ "" then
            { ids0 with canonResourcePlainURI := ids0.baseURI ++ "#" ++ s.anchor }
          else ids0
        let ids2 :=
          if base.toString ++ "#" ++ ptr ≠ ids1.canonResourcePointerURI then
            { ids1 with enclosingResourceURIs :=
                ids1.enclosingResourceURIs ++ [base.toString ++ "#" ++ ptr] }
          else ids1
        (.cont, s, (alSet m ptr ids2, evs))

/-- `ComputeIdentifiers` (`identifiers.go` lines 14–64).  Returns the map,
the Go error result — literally `nil`: every internal failure is discarded
by the source (`_ = Walk(...)`, `m2, _ := ComputeIdentifiers(...)`,
`base, _ := url.Parse(...)`) — and the walker mutation events. -/
def computeIdentifiers :
    Nat → Schema → List (String × Identifiers) × Option String × List MutEvent
  | 0, _ => ([], none, [])
  | f + 1, root =>
    let base := urlParse root.id
    let out := Walk (f + 1) false root (idVisitWith (computeIdentifiers f) base)
      (([], []) : IdSt)
    (out.2.2.1.1, none, out.2.2.2 ++ out.2.2.1.2)

/-! ## The reference resolver (`resolve.go`) -/

/-- Structured counterparts of the resolver's error values.  `sideLoad` wraps
the "failed to side-load referenced schema" path; `nilLoaderPanic` and
`nilDeref` stand for the two places where the Go code would dereference a
nil pointer (calling `Load` on a nil `Loader` interface, and reading a
keyword field off a nil `current`); `outOfFuel` is embedding-only. -/
inductive RErr where
  | sideLoad (ref : String) (e : RErr)
  | loadExternal (uri : String) (e : String)
  | missingIndex
  | invalidIndex (s : String)
  | outOfBounds (s : String)
  | missingKey (pre : List String)
  | noSchemaAt (pre : List String)
  | unknownSegment (seg : String) (pre : List String)
  | nilLoaderPanic
  | nilDeref
  | indexPanic (i : Int)
  | outOfFuel
deriving DecidableEq, Repr

/-- An external loader: given a (resolved) URI, a schema, nothing, or an
error.  Modelled as pure (the `context.Context` argument is dropped). -/
def ExtLoader : Type := GoURL → Except String (Option Schema)

/-- `ResolveConfig`.  `root`/`documentRoot` are nilable schema pointers. -/
structure RConfig where
  loader : Option ExtLoader := none
  root : Option Schema := none
  documentRoot : Option Schema := none
  ignoreRefs : Bool := false

def applyDefaults (cfg : RConfig) (schema : Schema) : RConfig :=
  let c1 := if cfg.root.isNone then { cfg with root := some schema } else cfg
  if c1.documentRoot.isNone then { c1 with documentRoot := c1.root } else c1

/-- The data captured by the `NewLocalLoader` closure: the identifier map
(with the synthesized `"/"` record) and the prefetch table. -/
structure LLData where
  ids : List (String × Identifiers) := []
  prefetched : List (String × Option Schema) := []

/-- The closure body of the local loader's `Load`.  First pass: a record
whose plain URI equals the query; second pass (only when the first produced
an empty base): a resource-root record whose base equals the query without
fragment.  On a prefetch hit with a non-empty residual pointer the
caller-supplied URI is rewritten in place (modelled by returning the new
URI); otherwise the next loader is consulted (`(nil, nil)` when absent). -/
def localLoad (data : LLData) (next : Option ExtLoader) (uri : GoURL) :
    Except String (Option Schema) × GoURL :=
  let firstPass := data.ids.find? fun kv => kv.2.canonResourcePlainURI = uri.toString
  let b1r1 : String × String :=
    match firstPass with
    | some kv => (kv.2.baseURI, (urlParse kv.2.canonResourcePointerURI).fragment)
    | none => ("", "")
  let br : String × String :=
    if b1r1.1 = "" then
      let u2str := uri.noFrag.toString
      match data.ids.find? (fun kv =>
          kv.2.baseURI ++ "#" = kv.2.canonResourcePointerURI ∧ kv.2.baseURI = u2str) with
      | some kv => (kv.2.baseURI, "#" ++ uri.fragment)
      | none => b1r1
    else b1r1
  match alGet data.prefetched br.1 with
  | some s =>
    if br.2 ≠ "" then (.ok s, urlParse br.2)
    else
      match next with
      | some l => (l uri, uri)
      | none => (.ok none, uri)
  | none =>
    match next with
    | some l => (l uri, uri)
    | none => (.ok none, uri)

/-- The side-load function type: how `resolveRef` dereferences a `$ref`
(instantiated with `ResolveReference` at one less fuel). -/
def SideLoadFn : Type := RConfig → String → Schema → Except RErr (Option Schema) × List MutEvent

/-- The collection selected by an array-applicator segment (`col` in the
source's switch). -/
def colOf (seg : String) (cur2 : Schema) : List Schema :=
  if seg = "allOf" then cur2.allOf
  else if seg = "anyOf" then cur2.anyOf
  else if seg = "oneOf" then cur2.oneOf
  else cur2.prefixItems

/-- The map selected by a map-applicator segment. -/
def mapColOf (seg : String) (cur2 : Schema) : List (String × Schema) :=
  if seg = "$defs" then cur2.defs
  else if seg = "dependentSchemas" then cur2.dependentSchemas
  else if seg = "properties" then cur2.properties
  else cur2.patternProperties

/-- The subschema selected by a single-schema keyword segment (the
`not`/`if`/.../`propertyNames` cases of the source's switch; note the
source has no cases for `unevaluatedItems`, `unevaluatedProperties` or
`contentSchema`, so they are excluded here as well). -/
def singleChild (seg : String) (cur2 : Schema) : Option Schema :=
  if seg = "not" then cur2.notS
  else if seg = "if" then cur2.ifS
  else if seg = "then" then cur2.thenS
  else if seg = "else" then cur2.elseS
  else if seg = "items" then cur2.items
  else if seg = "contains" then cur2.containsS
  else if seg = "additionalProperties" then cur2.additionalProperties
  else cur2.propertyNames

/-- The single-schema keywords the source's switch handles. -/
def isSingleKw (seg : String) : Prop :=
  seg = "not" ∨ seg = "if" ∨ seg = "then" ∨ seg = "else" ∨ seg = "items" ∨
  seg = "contains" ∨ seg = "additionalProperties" ∨ seg = "propertyNames"

instance (seg : String) : Decidable (isSingleKw seg) := by
  unfold isSingleKw
  infer_instance

/-- `strconv.Atoi` plus the bounds checks of the array-applicator case. -/
def colIndex (col : List Schema) (nxt : String) : Except RErr Schema :=
  match goAtoi nxt with
  | none => .error (.invalidIndex nxt)
  | some i =>
    if (col.length : Int) ≤ i then .error (.outOfBounds nxt)
    else if i < 0 then .error (.indexPanic i)
    else .ok ((col.get? i.toNat).getD Schema.empty)

/-- Prepend the already-collected events to a recursive result. -/
def withEv (ev : List MutEvent) (out : Except RErr (Option Schema) × List MutEvent) :
    Except RErr (Option Schema) × List MutEvent :=
  (out.1, ev ++ out.2)

/-- The exhausted-path body of `resolveRef` (factored out so that unfolding
lemmas stay small). -/
def resolveRefNilBody (sideLoadFn : SideLoadFn) (cfg : RConfig) (cur : Schema) :
    Except RErr (Option Schema) × List MutEvent :=
  if cur.ref = "" then (.ok (some cur), [])
  else
    let cfg1 := if cur.id ≠ "" then { cfg with root := some cur } else cfg
    if cfg1.ignoreRefs then (.ok (some cur), [])
    else
      match sideLoadFn cfg1 cur.ref cur with
      | (.error e, ev) => (.error (.sideLoad cur.ref e), ev)
      | (.ok res, ev) => (.ok res, ev)

/-- The side-load step of `resolveRef`: adopt a non-empty `$id` as the new
root (first component) and dereference a present, unsuppressed `$ref`
through the side-load function (second component). -/
def resolveRefStep (sideLoadFn : SideLoadFn) (cfg : RConfig) (cur : Schema) :
    RConfig × (Except RErr (Option Schema) × List MutEvent) :=
  let cfg1 := if cur.id ≠ "" then { cfg with root := some cur } else cfg
  (cfg1,
    if cur.ref ≠ "" ∧ ¬ cfg1.ignoreRefs then
      match sideLoadFn cfg1 cur.ref cur with
      | (.error e, ev) => (.error (.sideLoad cur.ref e), ev)
      | (.ok res, ev) => (.ok res, ev)
    else (.ok (some cur), []))

/-- The segment dispatch of `resolveRef` (the source's switch), with the
one-segment and two-segment recursions abstracted as `recOne`/`recTwo` and
the following segment as `next`. -/
def resolveRefDispatch
    (recOne recTwo : RConfig → Option Schema →
      Except RErr (Option Schema) × List MutEvent)
    (next : Option String) (cfg1 : RConfig) (cur2 : Schema) (path : List String)
    (pos : Nat) (seg : String) (ev : List MutEvent) :
    Except RErr (Option Schema) × List MutEvent :=
  let cfg2 := { cfg1 with ignoreRefs := false }
  if seg = "#" then withEv ev (recOne cfg2 cfg2.root)
  else if seg = "allOf" ∨ seg = "anyOf" ∨ seg = "oneOf" ∨ seg = "prefixItems" then
    match next with
    | none => (.error .missingIndex, ev)
    | some nxt =>
      match colIndex (colOf seg cur2) nxt with
      | .error e => (.error e, ev)
      | .ok child => withEv ev (recTwo cfg2 (some child))
  else if seg = "$defs" ∨ seg = "dependentSchemas" ∨ seg = "properties" ∨
      seg = "patternProperties" then
    match next with
    | none => (.error (.missingKey (path.take (pos + 1))), ev)
    | some nxt =>
      match alGet (mapColOf seg cur2) nxt with
      | none => (.error (.noSchemaAt (path.take (pos + 2))), ev)
      | some s2 => withEv ev (recTwo cfg2 (some s2))
  else if isSingleKw seg then withEv ev (recOne cfg2 (singleChild seg cur2))
  else (.error (.unknownSegment seg (path.take pos)), ev)

/-- The segment-consuming body of `resolveRef`: run the side-load step,
fail on a nil dereference, then dispatch on the segment, with the
recursion abstracted as `recFn`. -/
def resolveRefConsBody
    (recFn : RConfig → Option Schema → Nat → List String →
      Except RErr (Option Schema) × List MutEvent)
    (sideLoadFn : SideLoadFn) (cfg : RConfig) (cur : Schema) (path : List String)
    (pos : Nat) (seg : String) (restSegs : List String) :
    Except RErr (Option Schema) × List MutEvent :=
  match (resolveRefStep sideLoadFn cfg cur).2 with
  | (.error e, ev) => (.error e, ev)
  | (.ok none, ev) => (.error .nilDeref, ev)
  | (.ok (some cur2), ev) =>
    resolveRefDispatch
      (fun cfg2 c => recFn cfg2 c (pos + 1) restSegs)
      (fun cfg2 c => recFn cfg2 c (pos + 2) restSegs.tail)
      restSegs.head? (resolveRefStep sideLoadFn cfg cur).1 cur2 path pos seg ev

/-- `resolveRef` (`resolve.go` lines 216–318), parameterised by the
side-load function and fuelled (structurally on the fuel; each recursive
call consumes at least one path segment, so `remaining.length + 1` fuel is
always enough and the out-of-fuel branch is unreachable from the
wrappers): return on nil or on an exhausted path without `$ref`; adopt a
non-empty `$id` as the new root; side-load through `ResolveReference` when
`$ref` is present and not suppressed; then consume one segment
(single-schema keywords, `#`) or two segments (array and map applicators),
clearing `ignoreRefs`; any other segment is an unknown-segment error. -/
def resolveRefWith (sideLoadFn : SideLoadFn) :
    Nat → RConfig → Option Schema → List String → Nat → List String →
    Except RErr (Option Schema) × List MutEvent
  | fuel, cfg, curOpt, path, pos, remaining =>
    match curOpt, remaining with
    | none, _ => (.ok none, [])
    | some cur, [] => resolveRefNilBody sideLoadFn cfg cur
    | some cur, seg :: restSegs =>
      match fuel with
      | 0 => (.error .outOfFuel, [])
      | f + 1 =>
        resolveRefConsBody
          (fun cfg2 c p2 r2 => resolveRefWith sideLoadFn f cfg2 c path p2 r2)
          sideLoadFn cfg cur path pos seg restSegs

/-- Unfolding equations for `resolveRefWith`, proved definitionally. -/
theorem resolveRefWith_eq_none (sideLoadFn : SideLoadFn) (fuel : Nat)
    (cfg : RConfig) (path : List String) (pos : Nat) (remaining : List String) :
    resolveRefWith sideLoadFn fuel cfg none path pos remaining =
      (.ok none, []) := by
  cases fuel <;> rfl

theorem resolveRefWith_eq_nil (sideLoadFn : SideLoadFn) (fuel : Nat)
    (cfg : RConfig) (cur : Schema) (path : List String) (pos : Nat) :
    resolveRefWith sideLoadFn fuel cfg (some cur) path pos [] =
      resolveRefNilBody sideLoadFn cfg cur := by
  cases fuel <;> rfl

theorem resolveRefWith_eq_cons (sideLoadFn : SideLoadFn) (f : Nat)
    (cfg : RConfig) (cur : Schema) (path : List String) (pos : Nat)
    (seg : String) (restSegs : List String) :
    resolveRefWith sideLoadFn (f + 1) cfg (some cur) path pos (seg :: restSegs) =
      resolveRefConsBody
        (fun cfg2 c p2 r2 => resolveRefWith sideLoadFn f cfg2 c path p2 r2)
        sideLoadFn cfg cur path pos seg restSegs := rfl

/-- The prefetch loop of `NewLocalLoader`: for every record that is a
resource root (`base_uri ++ "#" = canonical_pointer_uri`), resolve its
pointer in the tree (with `ignoreRefs` set) and store the result — or `nil`
when resolution failed, as the source discards the error — under its base
URI. -/
def prefetchLoopWith
    (resolveFn : List String → Except RErr (Option Schema) × List MutEvent) :
    List (String × Identifiers) → List (String × Option Schema) →
    List MutEvent → List (String × Option Schema) × List MutEvent
  | [], acc, evs => (acc, evs)
  | kv :: rest, acc, evs =>
    if kv.2.baseURI ++ "#" = kv.2.canonResourcePointerURI then
      let r := resolveFn (getUnescapedPath kv.1)
      let v : Option Schema := match r.1 with | .ok v => v | .error _ => none
      prefetchLoopWith resolveFn rest (alSet acc kv.2.baseURI v) (evs ++ r.2)
    else prefetchLoopWith resolveFn rest acc evs

/-- `NewLocalLoader` (construction part): compute the identifiers, add the
synthesized root record, prefetch every resource root. -/
def newLocalLoaderWith
    (ci : List (String × Identifiers) × Option String × List MutEvent)
    (resolveFn : List String → Except RErr (Option Schema) × List MutEvent)
    (root : Schema) : LLData × List MutEvent :=
  let ids := alSet ci.1 "/"
    { baseURI := root.id, canonResourcePointerURI := root.id ++ "#" }
  let pf := prefetchLoopWith resolveFn ids [] []
  ({ ids := ids, prefetched := pf.1 }, ci.2.2 ++ pf.2)

/-- The body of `ResolveReference` (`resolve.go` lines 159–214),
parameterised by the side-load function and the identifier computation:
parse the reference, apply config defaults, resolve it against the
document/root URIs, consult the local loader (errors discarded; the URI may
be rewritten in place), adopt a non-empty `$id` on the current schema, then
dispatch on the URI shape (absolute → external loader, no path → fragment
pointer from root, else → relative pointer with `ignoreRefs`). -/
def resolveReferenceBody (sideLoadFn : SideLoadFn)
    (ciFn : Schema → List (String × Identifiers) × Option String × List MutEvent)
    (cfg0 : RConfig) (ref : String) (current0 : Schema) :
    Except RErr (Option Schema) × List MutEvent :=
  let u0 := urlParse ref
  let cfgD := applyDefaults cfg0 current0
  let root0 := cfgD.root.getD current0
  let docRoot := cfgD.documentRoot.getD root0
  let docURI := urlParse docRoot.id
  let rootURI := urlParse root0.id
  let u1 := (docURI.resolveReference rootURI).resolveReference u0
  let nll := newLocalLoaderWith (ciFn docRoot)
    (fun p => resolveRefWith sideLoadFn (p.length + 1) { ignoreRefs := true }
      (some docRoot) p 0 p)
    docRoot
  let ll := localLoad nll.1 cfgD.loader u1
  let u2 := ll.2
  let current1 := match ll.1 with | .ok (some ls) => ls | _ => current0
  let rootCfg1 : Schema × RConfig :=
    if current1.id ≠ "" then (current1, { cfgD with root := some current1 })
    else (root0, cfgD)
  let root1 := rootCfg1.1
  let cfg1 := rootCfg1.2
  if u2.isAbs then
    match cfgD.loader with
    | none => (.error .nilLoaderPanic, nll.2)
    | some l =>
      match l u2 with
      | .error e => (.error (.loadExternal u2.toString e), nll.2)
      | .ok ls =>
        let cfg2 := { cfg1 with root := ls }
        let path := getUnescapedPath u2.fragment
        let out := resolveRefWith sideLoadFn (path.length + 1) cfg2 ls path 0 path
        (out.1, nll.2 ++ out.2)
  else if u2.path = "" then
    let path := getUnescapedPath u2.fragment
    let out := resolveRefWith sideLoadFn (path.length + 1) cfg1 (some root1) path 0 path
    (out.1, nll.2 ++ out.2)
  else
    let path := getUnescapedPath u2.path
    let cfg2 := { cfg1 with ignoreRefs := (path = [] ∨ isRelative path) }
    let out := resolveRefWith sideLoadFn (path.length + 1) cfg2 (some current1) path 0 path
    (out.1, nll.2 ++ out.2)

/-- `ResolveReference`, tying the knot: the side-load function is
`resolveReference` itself at one less fuel (out-of-fuel when none is
left). -/
def resolveReference : Nat → RConfig → String → Schema →
    Except RErr (Option Schema) × List MutEvent
  | fuel, cfg0, ref, current0 =>
    resolveReferenceBody
      (fun cfg2 r c =>
        match fuel with
        | 0 => (.error .outOfFuel, [])
        | f + 1 => resolveReference f cfg2 r c)
      (computeIdentifiers fuel) cfg0 ref current0

/-- The side-load function at a given fuel. -/
def sideLoadAt (fuel : Nat) : SideLoadFn := fun cfg r c =>
  match fuel with
  | 0 => (.error .outOfFuel, [])
  | f + 1 => resolveReference f cfg r c

/-- `resolveRef` at a given fuel (the form used by callers and claims). -/
def resolveRef (fuel : Nat) (cfg : RConfig) (currentOpt : Option Schema)
    (path : List String) (pos : Nat) : Except RErr (Option Schema) × List MutEvent :=
  resolveRefWith (sideLoadAt fuel) ((path.drop pos).length + 1) cfg currentOpt path pos
    (path.drop pos)

/-- `NewLocalLoader` at a given fuel. -/
def newLocalLoader (fuel : Nat) (root : Schema) : LLData × List MutEvent :=
  newLocalLoaderWith (computeIdentifiers fuel root)
    (fun p => resolveRefWith (sideLoadAt fuel) (p.length + 1) { ignoreRefs := true }
      (some root) p 0 p)
    root

/-! ## JSON-pointer helpers (`jsonptr/ptr.go`) and the reference-pointer
validator (`ptr.go`) -/

/-- The causes carried by `SegmentError`. -/
inductive SegCause where
  | escapeSeq (s : String)
  | unknownKeyword
  | noSchema
  | invalidIndexSeg (s : String)
deriving DecidableEq, Repr

inductive PtrErr where
  | invalidPointer (raw : String)
  | segment (seg : String) (pos : Nat) (cause : SegCause)
deriving DecidableEq, Repr

/-- The per-segment tilde scan of `ValidateJSONPointerFunc`: a `~` must be
followed by `0` or `1`; returns the offending one- or two-character string. -/
def scanTildes : List Char → Option String
  | [] => none
  | c :: rest =>
    if c ≠ '~' then scanTildes rest
    else
      match rest with
      | [] => some "~"
      | d :: _ =>
        if d = '0' ∨ d = '1' then scanTildes rest
        else some (String.mk ['~', d])

/-- `jsonptr.ValidateJSONPointerFunc`: accepts `""` and `"/"`; otherwise
requires a leading `/`, splits the remainder on `/` (empty segments legal),
checks each segment's escapes, then runs the hook. -/
def ValidateJSONPointerFunc (pointer : String)
    (fn : Option (Nat → List String → Option PtrErr)) : Option PtrErr :=
  if pointer.data = [] ∨ pointer.data = ['/'] then none
  else if pointer.data.head? ≠ some '/' then some (.invalidPointer pointer)
  else
    let path := (splitCh '/' pointer.data.tail).map String.mk
    loop path 0 path
where
  loop (path : List String) (i : Nat) : List String → Option PtrErr
    | [] => none
    | seg :: rest =>
      match scanTildes seg.data with
      | some bad => some (.segment seg i (.escapeSeq bad))
      | none =>
        match fn with
        | some f =>
          match f i path with
          | some e => some e
          | none => loop path (i + 1) rest
        | none => loop path (i + 1) rest

/-- `jsonptr.IsArrayIndex`. -/
def IsArrayIndex (segment : String) : Bool :=
  let r := segment.data
  if r.length = 1 ∧ r.head? = some '0' then true
  else loop true r
where
  loop (first : Bool) : List Char → Bool
    | [] => true
    | c :: rest =>
      if (first ∧ c = '0') ∨ ¬ isAsciiDigit c then false
      else loop false rest

/-- `isNCName` (`ptr.go`). -/
def isNCName (str : String) : Bool :=
  loop true str.data
where
  loop (first : Bool) : List Char → Bool
    | [] => true
    | c :: rest =>
      if isAsciiLetter c ∨ isAsciiDigit c ∨ c = '_' then loop false rest
      else if ¬ first ∧ (c = '-' ∨ c = '.') then loop false rest
      else false

/-- `schemaSegmentValidator` (`ptr.go`): the §4.3 keyword grammar.  Array
and map applicators need a further segment (else *does not point to
schema*); the single-schema keywords — including `unevaluatedItems`,
`unevaluatedProperties` and `contentSchema` — need none; any other segment
must follow an applicator (array applicators check `IsArrayIndex`), else
*unknown keyword*. -/
def schemaSegmentValidator (i : Nat) (segments : List String) : Option PtrErr :=
  let segment := (segments.get? i).getD ""
  if segment = "allOf" ∨ segment = "anyOf" ∨ segment = "oneOf" ∨
      segment = "prefixItems" ∨ segment = "$defs" ∨ segment = "dependentSchemas" ∨
      segment = "properties" ∨ segment = "patternProperties" then
    if i + 1 ≥ segments.length then some (.segment segment i .noSchema)
    else none
  else if segment = "not" ∨ segment = "if" ∨ segment = "then" ∨ segment = "else" ∨
      segment = "items" ∨ segment = "contains" ∨ segment = "additionalProperties" ∨
      segment = "propertyNames" ∨ segment = "unevaluatedItems" ∨
      segment = "unevaluatedProperties" ∨ segment = "contentSchema" then
    none
  else
    if i = 0 then some (.segment segment i .unknownKeyword)
    else
      let prev := (segments.get? (i - 1)).getD ""
      if prev = "$defs" ∨ prev = "dependentSchemas" ∨ prev = "properties" ∨
          prev = "patternProperties" then none
      else if prev = "allOf" ∨ prev = "anyOf" ∨ prev = "oneOf" ∨ prev = "prefixItems" then
        if ¬ IsArrayIndex segment then some (.segment segment i (.invalidIndexSeg segment))
        else none
      else some (.segment segment i .unknownKeyword)

/-- `ValidateReferencePointer` (`ptr.go`): a fragment that is a plain-name
anchor is accepted; otherwise the fragment pointer is validated with the
schema segment grammar. -/
def ValidateReferencePointer (ref : String) : Option PtrErr :=
  if ref.data.length > 1 ∧ ref.data.head? = some '#' then
    let ref2 := String.mk ref.data.tail
    if isNCName ref2 then none
    else ValidateJSONPointerFunc ref2 (some schemaSegmentValidator)
  else ValidateJSONPointerFunc ref (some schemaSegmentValidator)

/-! ## The JSON wire form (`Schema.MarshalJSON` / `Schema.UnmarshalJSON`,
`IsTrue` / `IsFalse`, `resolve.go` schema revision)

The object wire form of a non-`true`/`false` schema is modelled by the field
record itself (`JForm.jobj`): Go's default struct (de)serialization is
mutually inverse on the model's canonical values, and the claims below are
about the `true`/`false` collapse. -/

/-- `hasMetadata` — the exact field list of the source (note that the
source's list does not include `$anchor`). -/
def hasMetadata (s : Schema) : Bool :=
  decide (s.core.leaf.schemaKw ≠ "") ||
  decide (s.core.leaf.vocabulary.length > 0) ||
  decide (s.core.leaf.id ≠ "") ||
  decide (s.core.leaf.ref ≠ "") ||
  decide (s.core.leaf.dynamicRef ≠ "") ||
  decide (s.core.defs.length > 0) ||
  decide (s.core.leaf.comment ≠ "") ||
  decide (s.core.leaf.title ≠ "") ||
  decide (s.core.leaf.description ≠ "") ||
  s.core.leaf.defaultV.isSome ||
  s.core.leaf.deprecated.isSome ||
  s.core.leaf.readOnly.isSome ||
  s.core.leaf.writeOnly.isSome ||
  decide (s.core.leaf.examples.length > 0)

def hasApplicators (s : Schema) : Bool :=
  decide (s.core.allOf.length ≠ 0) ||
  decide (s.core.anyOf.length ≠ 0) ||
  decide (s.core.oneOf.length ≠ 0) ||
  s.core.notS.isSome ||
  s.core.ifS.isSome ||
  s.core.thenS.isSome ||
  s.core.elseS.isSome ||
  decide (s.core.dependentSchemas.length ≠ 0) ||
  decide (s.core.prefixItems.length ≠ 0) ||
  s.core.items.isSome ||
  s.core.containsS.isSome ||
  decide (s.core.properties.length ≠ 0) ||
  decide (s.core.patternProperties.length ≠ 0) ||
  s.core.additionalProperties.isSome ||
  s.core.propertyNames.isSome

/-- `hasValidators` — the exact field list of the source (which checks
neither `maxItems`/`minItems` nor `pattern`). -/
def hasValidators (s : Schema) : Bool :=
  s.core.leaf.typeSet.isSome ||
  s.core.leaf.enum.isSome ||
  s.core.leaf.constV.isSome ||
  s.core.leaf.multipleOf.isSome ||
  s.core.leaf.maximum.isSome ||
  s.core.leaf.exclusiveMaximum.isSome ||
  s.core.leaf.minimum.isSome ||
  s.core.leaf.exclusiveMinimum.isSome ||
  s.core.leaf.maxLength.isSome ||
  s.core.leaf.minLength.isSome ||
  s.core.leaf.uniqueItems.isSome ||
  s.core.leaf.maxContains.isSome ||
  s.core.leaf.minContains.isSome ||
  s.core.leaf.maxProperties.isSome ||
  s.core.leaf.minProperties.isSome ||
  s.core.leaf.required.isSome ||
  s.core.leaf.dependentRequired.isSome

def Schema.IsTrue (s : Schema) : Bool :=
  !hasMetadata s && !hasApplicators s && !hasValidators s

def Schema.IsFalse (s : Schema) : Bool :=
  match s.core.notS with
  | some n => n.IsTrue
  | none => false

/-- The JSON wire form of a schema: the token `true`, the token `false`, or
an object (carried as the schema's field record). -/
inductive JForm where
  | jtrue
  | jfalse
  | jobj (s : Schema)

/-- `Schema.MarshalJSON`. -/
def marshalJSON (s : Schema) : JForm :=
  if s.IsFalse then .jfalse
  else if s.IsTrue then .jtrue
  else .jobj s

/-- `Schema.UnmarshalJSON`. -/
def unmarshalJSON : JForm → Schema
  | .jtrue => Schema.empty
  | .jfalse => .mk { notS := some Schema.empty }
  | .jobj o => o

/-! ## Concrete fixtures used by the claim theorems -/

/-- `{"type": "boolean"}`. -/
def fxBool : Schema := .mk { leaf := { typeSet := some ["boolean"] } }

/-- A root carrying a single definition `foo`. -/
def fxDefsFoo : Schema := .mk { defs := [("foo", fxBool)] }

/-- The embedded resource of the C2 counterexample. -/
def fxC2B : Schema := .mk { leaf := { id := "other.json" } }

/-- The C2 counterexample root: it has an `$id` and a top-level `$ref` to an
embedded resource. -/
def fxC2root : Schema :=
  .mk { leaf := { id := "https://e/root.json", ref := "other.json" },
        defs := [("B", fxC2B)] }

/-- The C4 fixture: the root has a `not` child (which itself has a `not`
grandchild) and an `if` child. -/
def fxC4inner : Schema := .mk { notS := some Schema.empty }
def fxC4root : Schema := .mk { notS := some fxC4inner, ifS := some Schema.empty }

/-- A visitor that returns skip-all at `/not/not` and logs every visit. -/
def fxC4vf : VisitorM (List String) := fun p s st =>
  if p = "/not/not" then (.skipAll, s, st ++ [p]) else (.cont, s, st ++ [p])

/-- The C6 counterexample root: no `$id`, one anchored definition. -/
def fxC6root : Schema := .mk { defs := [("A", .mk { leaf := { anchor := "foo" } })] }

/-- The C7 fixture: a schema with the three single-schema keywords the
resolver forgot, plus `items` as a control. -/
def fxC7 : Schema :=
  .mk { unevaluatedItems := some Schema.empty,
        unevaluatedProperties := some Schema.empty,
        contentSchema := some Schema.empty,
        items := some fxBool }

/-- The C5 witness node: a subschema declaring `$id = "b.json"`. -/
def fxC5s : Schema := .mk { leaf := { id := "b.json" } }

/-- The S6 / C5 root: `$id = https://example.com/root.json`,
`$defs.B.$id = other.json`, `$defs.B.$defs.X.$anchor = bar`. -/
def fxS6X : Schema := .mk { leaf := { anchor := "bar" } }
def fxS6B : Schema := .mk { leaf := { id := "other.json" }, defs := [("X", fxS6X)] }
def fxS6root : Schema :=
  .mk { leaf := { id := "https://example.com/root.json" }, defs := [("B", fxS6B)] }

/-! ## Claim theorems (first batch) -/

/-- **C4** (code bug).  The claim — and the walker's own documentation
("SkipAll will skip all remaining schemas") — says that after the visitor
returns skip-all at `p`, the node at `p` is the last one visited.  The code
only returns `nil` from the *current* sibling loop, so an ancestor's loop
continues: with skip-all returned at `/not/not`, the walker still visits
`/if` afterwards (and returns success).  The skip-this-node and
error-propagation parts of the claim do hold, as the remaining conjuncts
show. -/
theorem c4_skipAll_code_bug :
    ((Walk 10 false fxC4root fxC4vf []).2.2.1 = ["/", "/not", "/not/not", "/if"] ∧
      (Walk 10 false fxC4root fxC4vf []).1 = none) ∧
    (Walk 10 false fxC4root
        (fun p s st => if p = "/not" then (.skip, s, st ++ [p]) else (.cont, s, st ++ [p]))
        ([] : List String)).2.2.1 = ["/", "/not", "/if"] ∧
    ((Walk 10 false fxC4root
        (fun p s st => if p = "/not/not" then (.fail "boom", s, st ++ [p])
                       else (.cont, s, st ++ [p]))
        ([] : List String)).1 = some (.userErr "boom")) := by
  exact ⟨⟨rfl, rfl⟩, rfl, rfl⟩

/-- **C7** (code bug).  The §4.3 grammar — enforced by the repository's own
`ValidateReferencePointer` — accepts `unevaluatedItems`,
`unevaluatedProperties` and `contentSchema` as single-schema keywords, and
the walker traverses them; but `resolveRef`'s switch has no case for them,
so a pointer naming them fails with the unknown-segment error instead of
descending.  The other single-schema keywords (here `items`, `not`) and the
two-segment collection keywords behave as claimed. -/
theorem c7_unevaluated_keywords_code_bug :
    ValidateReferencePointer "#/unevaluatedItems" = none ∧
    ValidateReferencePointer "#/unevaluatedProperties" = none ∧
    ValidateReferencePointer "#/contentSchema" = none ∧
    (resolveRef 5 {} (some fxC7) ["unevaluatedItems"] 0).1 =
      .error (.unknownSegment "unevaluatedItems" []) ∧
    (resolveRef 5 {} (some fxC7) ["unevaluatedProperties"] 0).1 =
      .error (.unknownSegment "unevaluatedProperties" []) ∧
    (resolveRef 5 {} (some fxC7) ["contentSchema"] 0).1 =
      .error (.unknownSegment "contentSchema" []) ∧
    (resolveRef 5 {} (some fxC7) ["items"] 0).1 = .ok (some fxBool) ∧
    (resolveRef 5 {} (some fxC7) ["not"] 0).1 = .ok none ∧
    (resolveRef 5 {} (some fxDefsFoo) ["$defs", "foo"] 0).1 = .ok (some fxBool) := by
  exact ⟨rfl, rfl, rfl, rfl, rfl, rfl, rfl, rfl, rfl⟩

/-- **C8** (code bug).  `IsArrayIndex` should (per the claim, the spec, and
RFC 6901's `array-index = %x30 / (%x31-39 *(%x30-39))` grammar referenced by
the function's own documentation) reject the empty segment; the code's scan
loop falls through to `true` on the empty string.  The rest of the claimed
characterization holds on the sampled inputs. -/
theorem c8_isArrayIndex_empty_code_bug :
    IsArrayIndex "" = true ∧
    IsArrayIndex "0" = true ∧
    IsArrayIndex "1" = true ∧
    IsArrayIndex "10" = true ∧
    IsArrayIndex "102" = true ∧
    IsArrayIndex "01" = false ∧
    IsArrayIndex "00" = false ∧
    IsArrayIndex "+1" = false ∧
    IsArrayIndex "-1" = false ∧
    IsArrayIndex "a" = false := by
  exact ⟨rfl, rfl, rfl, rfl, rfl, rfl, rfl, rfl, rfl, rfl⟩

/-- **C10** (confirmed).  `ComputeIdentifiers` always returns a `nil` error:
the source ends in `return m, nil` and discards every internal failure
(`base, _ := url.Parse(...)`, `_ = Walk(...)`,
`m2, _ := ComputeIdentifiers(...)`), so no caller can observe a failure. -/
theorem c10_computeIdentifiers_nil_error (fuel : Nat) (s : Schema) :
    (computeIdentifiers fuel s).2.1 = none := by
  cases fuel <;> simp [computeIdentifiers]

/-- Counterexample to **C2**: for a schema whose root carries a `$ref`, the
resolver dereferences the `$ref` once the pointer is exhausted, so
resolving `"#"` returns the `$ref` target instead of the schema itself. -/
theorem c2_counterexample :
    (resolveReference 20 {} "#" fxC2root).1 = .ok (some fxC2B) ∧ fxC2B ≠ fxC2root := by
  refine ⟨rfl, fun h => ?_⟩
  exact absurd (congrArg Schema.ref h) (by decide)

/-- Counterexample to **C6**: when the root declares no `$id`, the enclosing
base URI string is empty and a record for an anchored definition is emitted
with an empty `base_uri` (its `canonical_pointer_uri` is still non-empty). -/
theorem c6_counterexample :
    alGet (computeIdentifiers 5 fxC6root).1 "/$defs/A" =
      some { baseURI := "", canonResourcePlainURI := "#foo",
             canonResourcePointerURI := "#/$defs/A", enclosingResourceURIs := [] } := by
  exact rfl

/-- **C9** (confirmed).  The wire form: a schema with no metadata, no
applicators and no validators marshals to the token `true`; a schema whose
`not` member is an empty schema marshals to `false`; unmarshalling `true`
and `false` yields exactly the empty schema and `{not: {}}`; and
serialize ∘ deserialize is the identity on wire forms
(`marshal (unmarshal (marshal s)) = marshal s` for every `s`). -/
theorem c9_wire_roundtrip :
    (∀ s : Schema, hasMetadata s = false → hasApplicators s = false →
      hasValidators s = false → marshalJSON s = JForm.jtrue) ∧
    (∀ (s : Schema) (n : Schema), s.core.notS = some n → n.IsTrue = true →
      marshalJSON s = JForm.jfalse) ∧
    unmarshalJSON JForm.jtrue = Schema.empty ∧
    unmarshalJSON JForm.jfalse = Schema.mk { notS := some Schema.empty } ∧
    (∀ s : Schema, marshalJSON (unmarshalJSON (marshalJSON s)) = marshalJSON s) := by
  refine ⟨?_, ?_, rfl, rfl, ?_⟩
  · intro s h1 h2 h3
    cases hn : s.core.notS with
    | none => simp [marshalJSON, Schema.IsFalse, hn, Schema.IsTrue, h1, h2, h3]
    | some n => simp [hasApplicators, hn] at h2
  · intro s n hn ht
    simp [marshalJSON, Schema.IsFalse, hn, ht]
  · intro s
    by_cases hf : s.IsFalse = true
    · rw [show marshalJSON s = JForm.jfalse from by simp [marshalJSON, hf]]
      rfl
    · by_cases ht : s.IsTrue = true
      · rw [show marshalJSON s = JForm.jtrue from by simp [marshalJSON, hf, ht]]
        rfl
      · rw [show marshalJSON s = JForm.jobj s from by simp [marshalJSON, hf, ht]]
        simp [unmarshalJSON, marshalJSON, hf, ht]

/-- Witness for **C9** at concrete schemas: a schema whose only member is
`pattern` (not in the source's validator list) marshals to `true`; a schema
carrying `{not: {}}` and a `maxItems` (not in the validator list) marshals
to `false`; and the round-trip holds at a non-trivial object schema. -/
theorem c9_wire_roundtrip_witness :
    marshalJSON (Schema.mk { leaf := { pattern := some "x" } }) = JForm.jtrue ∧
    marshalJSON (Schema.mk { notS := some Schema.empty, leaf := { maxItems := some 3 } })
      = JForm.jfalse ∧
    marshalJSON (unmarshalJSON (marshalJSON fxDefsFoo)) = marshalJSON fxDefsFoo := by
  refine ⟨?_, ?_, ?_⟩
  · exact c9_wire_roundtrip.1 _ rfl rfl rfl
  · exact c9_wire_roundtrip.2.1 _ Schema.empty rfl rfl
  · exact c9_wire_roundtrip.2.2.2.2 fxDefsFoo

/-! ## Walker invariants

Generic preservation lemmas for the threaded visitor state and for the
mutation-event log, used by the identifier-engine and resolver claims. -/

/-- Every logged write left the slot value unchanged. -/
def EvOk (l : List MutEvent) : Prop := ∀ ev ∈ l, ev.1 = ev.2

@[simp] theorem evOk_nil : EvOk [] := by simp [EvOk]

@[simp] theorem evOk_append {a b : List MutEvent} : EvOk (a ++ b) ↔ EvOk a ∧ EvOk b := by
  simp [EvOk, List.mem_append, or_imp, forall_and]

@[simp] theorem evOk_cons {x : MutEvent} {t : List MutEvent} :
    EvOk (x :: t) ↔ x.1 = x.2 ∧ EvOk t := by
  simp [EvOk]

/-- State preservation through the child loop: if the visitor and the
descent function preserve `P` on the threaded state, so does the loop. -/
theorem walkChildrenWith_state_inv {σ : Type} (P : σ → Prop)
    (descendFn : String → Schema → σ → Option WErr × Schema × σ × List MutEvent)
    (vf : VisitorM σ)
    (hd : ∀ p c st, P st → P (descendFn p c st).2.2.1)
    (hv : ∀ p c st, P st → P ((vf p c st).2.2)) :
    ∀ (ks : List ChildKey) (ptr : String) (s : Schema) (st : σ), P st →
      P ((walkChildrenWith descendFn vf ptr s st ks).2.2.1) := by
  intro ks
  induction ks with
  | nil => intro ptr s st hP; simpa [walkChildrenWith] using hP
  | cons k rest ih =>
    intro ptr s st hP
    simp only [walkChildrenWith]
    split
    · exact ih ptr s st hP
    · next c heq =>
        split
        · exact hv _ c st hP
        · exact hv _ c st hP
        · exact ih ptr _ _ (hv _ c st hP)
        · split
          · exact hd _ _ _ (hv _ c st hP)
          · exact ih ptr _ _ (hd _ _ _ (hv _ c st hP))

/-- State preservation through `walkRec`. -/
theorem walkRec_state_inv {σ : Type} (P : σ → Prop) (vf : VisitorM σ)
    (hv : ∀ p c st, P st → P ((vf p c st).2.2)) :
    ∀ (fuel : Nat) (cancelled : Bool) (ptr : String) (s : Schema) (st : σ), P st →
      P ((walkRec fuel cancelled ptr s vf st).2.2.1) := by
  intro fuel
  induction fuel using Nat.strong_induction_on with
  | _ fuel ih =>
    intro cancelled ptr s st hP
    rw [walkRec]
    cases cancelled with
    | true => simpa using hP
    | false =>
      simp only [Bool.false_eq_true, if_false]
      apply walkChildrenWith_state_inv P _ vf ?_ hv _ ptr s st hP
      intro p c st1 h1
      cases fuel with
      | zero => exact h1
      | succ f => exact ih f (Nat.lt_succ_self f) false p c st1 h1

/-- State preservation through `Walk`. -/
theorem Walk_state_inv {σ : Type} (P : σ → Prop) (vf : VisitorM σ)
    (hv : ∀ p c st, P st → P ((vf p c st).2.2)) :
    ∀ (fuel : Nat) (cancelled : Bool) (s : Schema) (st : σ), P st →
      P ((Walk fuel cancelled s vf st).2.2.1) := by
  intro fuel cancelled s st hP
  simp only [Walk]
  cases hcode : (vf "/" s st).1 with
  | fail e => exact hv "/" s st hP
  | skip => exact hv "/" s st hP
  | skipAll => exact hv "/" s st hP
  | cont => exact walkRec_state_inv P vf hv fuel cancelled "/" _ _ (hv "/" s st hP)

/-- Event reflexivity through the child loop: if the visitor never changes
the schema it is handed and the descent function only produces reflexive
events, the loop only produces reflexive events. -/
theorem walkChildrenWith_events {σ : Type}
    (descendFn : String → Schema → σ → Option WErr × Schema × σ × List MutEvent)
    (vf : VisitorM σ)
    (hd : ∀ p c st, EvOk (descendFn p c st).2.2.2)
    (hv : ∀ p c st, ((vf p c st).2.1) = c) :
    ∀ (ks : List ChildKey) (ptr : String) (s : Schema) (st : σ),
      EvOk ((walkChildrenWith descendFn vf ptr s st ks).2.2.2) := by
  intro ks
  induction ks with
  | nil => intro ptr s st; simp [walkChildrenWith]
  | cons k rest ih =>
    intro ptr s st
    simp only [walkChildrenWith]
    split
    · exact ih ptr s st
    · next c heq =>
        split
        · by_cases hw : writeThrough k = true <;> simp [hw, EvOk, hv _ c st]
        · by_cases hw : writeThrough k = true <;> simp [hw, EvOk, hv _ c st]
        · by_cases hw : writeThrough k = true <;>
            simpa [hw, hv _ c st] using ih ptr _ _
        · split
          · simp only [evOk_cons]
            exact ⟨(hv _ c st).symm, hd _ _ _⟩
          · simp only [evOk_cons, evOk_append]
            exact ⟨(hv _ c st).symm, hd _ _ _, ih ptr _ _⟩

/-- Event reflexivity through `walkRec` for schema-preserving visitors. -/
theorem walkRec_events {σ : Type} (vf : VisitorM σ)
    (hv : ∀ p c st, ((vf p c st).2.1) = c) :
    ∀ (fuel : Nat) (cancelled : Bool) (ptr : String) (s : Schema) (st : σ),
      EvOk ((walkRec fuel cancelled ptr s vf st).2.2.2) := by
  intro fuel
  induction fuel using Nat.strong_induction_on with
  | _ fuel ih =>
    intro cancelled ptr s st
    rw [walkRec]
    cases cancelled with
    | true => simp
    | false =>
      simp only [Bool.false_eq_true, if_false]
      apply walkChildrenWith_events _ vf ?_ hv _ ptr s st
      intro p c st1
      cases fuel with
      | zero => simp
      | succ f => exact ih f (Nat.lt_succ_self f) false p c st1

/-- Event reflexivity through `Walk` for schema-preserving visitors. -/
theorem Walk_events {σ : Type} (vf : VisitorM σ)
    (hv : ∀ p c st, ((vf p c st).2.1) = c) :
    ∀ (fuel : Nat) (cancelled : Bool) (s : Schema) (st : σ),
      EvOk ((Walk fuel cancelled s vf st).2.2.2) := by
  intro fuel cancelled s st
  simp only [Walk]
  cases hcode : (vf "/" s st).1 with
  | fail e => simp [EvOk, hv "/" s st]
  | skip => simp [EvOk, hv "/" s st]
  | skipAll => simp [EvOk, hv "/" s st]
  | cont =>
    simp only [evOk_cons]
    exact ⟨(hv "/" s st).symm, walkRec_events vf hv fuel cancelled "/" _ _⟩

/-! ## Association-list and string helper lemmas -/

theorem mem_alSet {α : Type} (m : List (String × α)) (k : String) (v : α) :
    ∀ kv ∈ alSet m k v, kv ∈ m ∨ kv = (k, v) := by
  induction m with
  | nil =>
    intro kv h
    simp [alSet] at h
    exact Or.inr h
  | cons hd t ih =>
    intro kv h
    simp only [alSet] at h
    split at h
    · next hk =>
        rcases List.mem_cons.mp h with h1 | h1
        · right; rw [h1, hk]
        · left; exact List.mem_cons_of_mem _ h1
    · next hk =>
        rcases List.mem_cons.mp h with h1 | h1
        · left; exact h1 ▸ List.mem_cons_self _ _
        · rcases ih kv h1 with h2 | h2
          · left; exact List.mem_cons_of_mem _ h2
          · right; exact h2

theorem alGet_alSet_self {α : Type} (m : List (String × α)) (k : String) (v : α) :
    alGet (alSet m k v) k = some v := by
  induction m with
  | nil => simp [alSet, alGet]
  | cons hd t ih =>
    simp only [alSet]
    split
    · next hk => simp [alGet, hk]
    · next hk => simp [alGet, hk, ih]

theorem alGet_alSet_ne {α : Type} (m : List (String × α)) (k k2 : String) (v : α)
    (h : k2 ≠ k) : alGet (alSet m k v) k2 = alGet m k2 := by
  induction m with
  | nil => simp [alSet, alGet, Ne.symm h]
  | cons hd t ih =>
    simp only [alSet]
    split
    · next hk => simp [alGet, hk, Ne.symm h]
    · next hk => simp [alGet, ih]

/-- Values appearing after a fold of `alSet` insertions come either from the
initial map or from the inserted entries. -/
theorem foldl_alSet_values {α β : Type} (f : β → String) (g : β → α)
    (P : String × α → Prop) :
    ∀ (l : List β) (m : List (String × α)), (∀ kv ∈ m, P kv) →
      (∀ b ∈ l, P (f b, g b)) →
      ∀ kv ∈ l.foldl (fun acc b => alSet acc (f b) (g b)) m, P kv := by
  intro l
  induction l with
  | nil => intro m hm _ kv h; exact hm kv h
  | cons b t ih =>
    intro m hm hl kv h
    simp only [List.foldl_cons] at h
    refine ih (alSet m (f b) (g b)) ?_ (fun b2 hb2 => hl b2 (by simp [hb2])) kv h
    intro kv2 h2
    rcases mem_alSet m (f b) (g b) kv2 h2 with h3 | h3
    · exact hm kv2 h3
    · rw [h3]
      exact hl b (by simp)

theorem append_hash_append_ne (a b : String) : a ++ "#" ++ b ≠ "" := by
  intro h
  have hlen := congrArg String.length h
  rw [String.length_append, String.length_append] at hlen
  have h1 : ("#" : String).length = 1 := rfl
  have h2 : ("" : String).length = 0 := rfl
  omega

theorem append_hash_ne (a : String) : a ++ "#" ≠ "" := by
  intro h
  have hlen := congrArg String.length h
  rw [String.length_append] at hlen
  have h1 : ("#" : String).length = 1 := rfl
  have h2 : ("" : String).length = 0 := rfl
  omega

/-! ## C6: non-empty canonical pointer URIs -/

/-- One identifier-visitor step preserves "every record has a non-empty
canonical pointer URI", given that the recursive sub-computation only
produces such records. -/
theorem idVisitWith_canonPtr
    (sub : Schema → List (String × Identifiers) × Option String × List MutEvent)
    (base : GoURL)
    (hsub : ∀ s2, ∀ kv ∈ (sub s2).1, kv.2.canonResourcePointerURI ≠ "") :
    ∀ p s (st : IdSt), (∀ kv ∈ st.1, kv.2.canonResourcePointerURI ≠ "") →
      ∀ kv ∈ ((idVisitWith sub base p s st).2.2).1,
        kv.2.canonResourcePointerURI ≠ "" := by
  intro p s st hst kv hkv
  simp only [idVisitWith] at hkv
  split at hkv
  · exact hst kv hkv
  · split at hkv
    · -- `$id` branch
      split_ifs at hkv <;>
      · rcases mem_alSet _ _ _ kv hkv with h1 | h1
        · refine foldl_alSet_values _ _ _ _ st.1 hst ?_ kv h1
          intro b hb
          exact hsub _ b hb
        · rw [h1]
          exact append_hash_ne _
    · -- anchor-only branch
      split_ifs at hkv <;>
      · rcases mem_alSet _ _ _ kv hkv with h1 | h1
        · exact hst kv h1
        · rw [h1]
          exact append_hash_append_ne _ _

/-- **C6** (amended).  Every record in the map returned by
`ComputeIdentifiers` has a non-empty `canonical_pointer_uri` (it always
contains a `#`).  The claim's non-empty `base_uri` part fails when the root
declares no `$id` (see the counterexample): the `base_uri` of a record is
then the empty string. -/
theorem c6_amended_canonPtr_nonempty :
    ∀ (fuel : Nat) (root : Schema), ∀ kv ∈ (computeIdentifiers fuel root).1,
      kv.2.canonResourcePointerURI ≠ "" := by
  intro fuel
  induction fuel using Nat.strong_induction_on with
  | _ fuel ih =>
    intro root kv hkv
    cases fuel with
    | zero => simp [computeIdentifiers] at hkv
    | succ f =>
      simp only [computeIdentifiers] at hkv
      refine Walk_state_inv (σ := IdSt)
        (fun st => ∀ kv2 ∈ st.1, kv2.2.canonResourcePointerURI ≠ "")
        (idVisitWith (computeIdentifiers f) (urlParse root.id))
        (fun p c st hstp =>
          idVisitWith_canonPtr _ _ (fun s2 kv2 h2 => ih f (Nat.lt_succ_self f) s2 kv2 h2)
            p c st hstp)
        (f + 1) false root (([], []) : IdSt) (by simp) kv hkv

/-- Witness for **C6** (amended): the canonical pointer URI of the record at
`/$defs/B` of the S6 fixture is non-empty. -/
theorem c6_amended_witness :
    ("/$defs/B",
      ({ baseURI := "https://example.com/other.json",
         canonResourcePlainURI := "",
         canonResourcePointerURI := "https://example.com/other.json#",
         enclosingResourceURIs := ["https://example.com/root.json#/$defs/B"] } :
        Identifiers)).2.canonResourcePointerURI ≠ "" := by
  refine c6_amended_canonPtr_nonempty 10 fxS6root _ ?_
  rw [show (computeIdentifiers 10 fxS6root).1 =
    [("/$defs/B/$defs/X",
      { baseURI := "https://example.com/other.json",
        canonResourcePlainURI := "https://example.com/other.json#bar",
        canonResourcePointerURI := "https://example.com/other.json#/$defs/X",
        enclosingResourceURIs := ["https://example.com/root.json#/$defs/B/$defs/X"] }),
     ("/$defs/B",
      { baseURI := "https://example.com/other.json",
        canonResourcePlainURI := "",
        canonResourcePointerURI := "https://example.com/other.json#",
        enclosingResourceURIs := ["https://example.com/root.json#/$defs/B"] })] from rfl]
  simp

/-! ## C1: the resolver never mutates schemas -/

/-- The identifier visitor hands the schema back unchanged (it works on a
weak copy). -/
theorem idVisitWith_schema
    (sub : Schema → List (String × Identifiers) × Option String × List MutEvent)
    (base : GoURL) (p : String) (s : Schema) (st : IdSt) :
    (idVisitWith sub base p s st).2.1 = s := by
  simp only [idVisitWith]
  split_ifs <;> rfl

/-- The identifier visitor preserves event reflexivity of the threaded
state, given that the sub-computation only produces reflexive events. -/
theorem idVisitWith_evSt
    (sub : Schema → List (String × Identifiers) × Option String × List MutEvent)
    (base : GoURL)
    (hsub : ∀ s2, EvOk (sub s2).2.2) :
    ∀ p s (st : IdSt), EvOk st.2 → EvOk ((idVisitWith sub base p s st).2.2).2 := by
  intro p s st hst
  simp only [idVisitWith]
  split_ifs <;> simp_all [evOk_append]

/-- All walker writes performed by `ComputeIdentifiers` are reflexive. -/
theorem computeIdentifiers_events :
    ∀ (fuel : Nat) (root : Schema), EvOk (computeIdentifiers fuel root).2.2 := by
  intro fuel
  induction fuel using Nat.strong_induction_on with
  | _ fuel ih =>
    intro root
    cases fuel with
    | zero => simp [computeIdentifiers]
    | succ f =>
      simp only [computeIdentifiers, evOk_append]
      constructor
      · exact Walk_events _ (idVisitWith_schema (computeIdentifiers f) (urlParse root.id))
          (f + 1) false root _
      · refine Walk_state_inv (σ := IdSt) (fun st => EvOk st.2)
          (idVisitWith (computeIdentifiers f) (urlParse root.id))
          (fun p c st hstp =>
            idVisitWith_evSt _ _ (fun s2 => ih f (Nat.lt_succ_self f) s2) p c st hstp)
          (f + 1) false root (([], []) : IdSt) (by simp)

/-- `resolveRefNilBody` only returns the side-load function's events. -/
theorem resolveRefNilBody_events (sideLoadFn : SideLoadFn)
    (hs : ∀ cfg r c, EvOk (sideLoadFn cfg r c).2) (cfg : RConfig) (cur : Schema) :
    EvOk (resolveRefNilBody sideLoadFn cfg cur).2 := by
  have key : ∀ (cfg1 : RConfig), EvOk ((match sideLoadFn cfg1 cur.ref cur with
      | (.error e, ev) => (Except.error (RErr.sideLoad cur.ref e), ev)
      | (.ok res, ev) => (Except.ok res, ev)).2) := by
    intro cfg1
    rcases hsl : sideLoadFn cfg1 cur.ref cur with ⟨res, ev⟩
    have h0 := hs cfg1 cur.ref cur
    rw [hsl] at h0
    cases res <;> simpa using h0
  simp only [resolveRefNilBody]
  split_ifs <;> first | exact evOk_nil | exact key _

/-- `resolveRefStep` only returns the side-load function's events. -/
theorem resolveRefStep_events (sideLoadFn : SideLoadFn)
    (hs : ∀ cfg r c, EvOk (sideLoadFn cfg r c).2) (cfg : RConfig) (cur : Schema) :
    EvOk (resolveRefStep sideLoadFn cfg cur).2.2 := by
  have key : ∀ (cfg1 : RConfig), EvOk ((if cur.ref ≠ "" ∧ ¬ cfg1.ignoreRefs then
      match sideLoadFn cfg1 cur.ref cur with
      | (.error e, ev) => (Except.error (RErr.sideLoad cur.ref e), ev)
      | (.ok res, ev) => (Except.ok res, ev)
    else (Except.ok (some cur), ([] : List MutEvent))).2) := by
    intro cfg1
    split_ifs with hc
    · rcases hsl : sideLoadFn cfg1 cur.ref cur with ⟨res, ev⟩
      have h0 := hs cfg1 cur.ref cur
      rw [hsl] at h0
      cases res <;> simpa using h0
    · exact evOk_nil
  exact key (if cur.id ≠ "" then { cfg with root := some cur } else cfg)

/-- `resolveRefDispatch` only concatenates its input events with events of
the abstracted recursive calls. -/
theorem resolveRefDispatch_events
    (recOne recTwo : RConfig → Option Schema →
      Except RErr (Option Schema) × List MutEvent)
    (h1 : ∀ cfg c, EvOk (recOne cfg c).2) (h2 : ∀ cfg c, EvOk (recTwo cfg c).2)
    (next : Option String) (cfg1 : RConfig) (cur2 : Schema) (path : List String)
    (pos : Nat) (seg : String) (ev : List MutEvent) (hev : EvOk ev) :
    EvOk (resolveRefDispatch recOne recTwo next cfg1 cur2 path pos seg ev).2 := by
  simp only [resolveRefDispatch]
  split_ifs <;>
    first
    | exact evOk_append.mpr ⟨hev, h1 _ _⟩
    | exact hev
    | (split <;>
        first
        | exact hev
        | (split <;>
            first
            | exact hev
            | exact evOk_append.mpr ⟨hev, h2 _ _⟩))

/-- `resolveRefConsBody` only returns side-load and recursive-call
events. -/
theorem resolveRefConsBody_events
    (recFn : RConfig → Option Schema → Nat → List String →
      Except RErr (Option Schema) × List MutEvent)
    (hr : ∀ cfg c p2 r2, EvOk (recFn cfg c p2 r2).2)
    (sideLoadFn : SideLoadFn) (hs : ∀ cfg r c, EvOk (sideLoadFn cfg r c).2)
    (cfg : RConfig) (cur : Schema) (path : List String) (pos : Nat)
    (seg : String) (restSegs : List String) :
    EvOk (resolveRefConsBody recFn sideLoadFn cfg cur path pos seg restSegs).2 := by
  have hstep := resolveRefStep_events sideLoadFn hs cfg cur
  simp only [resolveRefConsBody]
  split
  · next e ev heq =>
      rw [heq] at hstep
      exact hstep
  · next ev heq =>
      rw [heq] at hstep
      exact hstep
  · next cur2 ev heq =>
      rw [heq] at hstep
      exact resolveRefDispatch_events _ _ (fun cfg2 c => hr cfg2 c _ _)
        (fun cfg2 c => hr cfg2 c _ _) _ _ _ _ _ _ _ hstep

/-- `resolveRefWith` only concatenates side-load events: every event it
returns comes from the side-load function, hence is reflexive when those
are. -/
theorem resolveRefWith_events (sideLoadFn : SideLoadFn)
    (hs : ∀ cfg r c, EvOk (sideLoadFn cfg r c).2) :
    ∀ (fuel : Nat) (cfg : RConfig) (curOpt : Option Schema) (path : List String)
      (pos : Nat) (remaining : List String),
      EvOk (resolveRefWith sideLoadFn fuel cfg curOpt path pos remaining).2 := by
  intro fuel
  induction fuel with
  | zero =>
    intro cfg curOpt path pos remaining
    match curOpt, remaining with
    | none, remaining =>
      rw [resolveRefWith_eq_none]
      exact evOk_nil
    | some cur, [] =>
      rw [resolveRefWith_eq_nil]
      exact resolveRefNilBody_events sideLoadFn hs cfg cur
    | some cur, seg :: restSegs => exact evOk_nil
  | succ f ih =>
    intro cfg curOpt path pos remaining
    match curOpt, remaining with
    | none, remaining =>
      rw [resolveRefWith_eq_none]
      exact evOk_nil
    | some cur, [] =>
      rw [resolveRefWith_eq_nil]
      exact resolveRefNilBody_events sideLoadFn hs cfg cur
    | some cur, seg :: restSegs =>
      rw [resolveRefWith_eq_cons]
      exact resolveRefConsBody_events _ (fun cfg2 c p2 r2 => ih cfg2 c path p2 r2)
        sideLoadFn hs cfg cur path pos seg restSegs

/-- The prefetch loop only accumulates resolver events. -/
theorem prefetchLoopWith_events
    (resolveFn : List String → Except RErr (Option Schema) × List MutEvent)
    (hres : ∀ p, EvOk (resolveFn p).2) :
    ∀ (l : List (String × Identifiers)) (acc : List (String × Option Schema))
      (evs : List MutEvent), EvOk evs →
      EvOk (prefetchLoopWith resolveFn l acc evs).2 := by
  intro l
  induction l with
  | nil =>
    intro acc evs hev
    exact hev
  | cons kv rest ih =>
    intro acc evs hev
    simp only [prefetchLoopWith]
    split_ifs
    · exact ih _ _ (evOk_append.mpr ⟨hev, hres _⟩)
    · exact ih _ _ hev

/-- `NewLocalLoader` only returns identifier-computation and prefetch
events. -/
theorem newLocalLoaderWith_events
    (ci : List (String × Identifiers) × Option String × List MutEvent)
    (hci : EvOk ci.2.2)
    (resolveFn : List String → Except RErr (Option Schema) × List MutEvent)
    (hres : ∀ p, EvOk (resolveFn p).2) (root : Schema) :
    EvOk (newLocalLoaderWith ci resolveFn root).2 := by
  simp only [newLocalLoaderWith]
  exact evOk_append.mpr ⟨hci, prefetchLoopWith_events resolveFn hres _ _ _ evOk_nil⟩

/-- The body of `ResolveReference` only returns events of the identifier
computation, the prefetch and the recursive resolutions. -/
theorem resolveReferenceBody_events (sideLoadFn : SideLoadFn)
    (hs : ∀ cfg r c, EvOk (sideLoadFn cfg r c).2)
    (ciFn : Schema → List (String × Identifiers) × Option String × List MutEvent)
    (hci : ∀ s, EvOk (ciFn s).2.2)
    (cfg0 : RConfig) (ref : String) (current0 : Schema) :
    EvOk (resolveReferenceBody sideLoadFn ciFn cfg0 ref current0).2 := by
  have hnll : ∀ (docRoot : Schema),
      EvOk (newLocalLoaderWith (ciFn docRoot)
        (fun p => resolveRefWith sideLoadFn (p.length + 1) { ignoreRefs := true }
          (some docRoot) p 0 p) docRoot).2 :=
    fun docRoot => newLocalLoaderWith_events _ (hci docRoot) _
      (fun p => resolveRefWith_events sideLoadFn hs _ _ _ _ _ _) docRoot
  simp only [resolveReferenceBody]
  split_ifs <;>
    first
    | exact evOk_append.mpr ⟨hnll _, resolveRefWith_events sideLoadFn hs _ _ _ _ _ _⟩
    | (split <;>
        first
        | exact hnll _
        | (split <;>
            first
            | exact hnll _
            | exact evOk_append.mpr
                ⟨hnll _, resolveRefWith_events sideLoadFn hs _ _ _ _ _ _⟩))

/-- Unfolding equation for `resolveReference`, proved definitionally. -/
theorem resolveReference_eq (fuel : Nat) (cfg0 : RConfig) (ref : String)
    (current0 : Schema) :
    resolveReference fuel cfg0 ref current0 =
      resolveReferenceBody (sideLoadAt fuel) (computeIdentifiers fuel)
        cfg0 ref current0 := by
  cases fuel <;> rfl

/-- Every event `ResolveReference` records is reflexive: the resolver only
writes back the value already stored in each visited slot. -/
theorem resolveReference_events :
    ∀ (fuel : Nat) (cfg0 : RConfig) (ref : String) (current0 : Schema),
      EvOk (resolveReference fuel cfg0 ref current0).2 := by
  intro fuel
  induction fuel using Nat.strong_induction_on with
  | _ fuel ih =>
    intro cfg0 ref current0
    rw [resolveReference_eq]
    refine resolveReferenceBody_events _ ?_ _
      (fun s => computeIdentifiers_events fuel s) cfg0 ref current0
    intro cfg2 r c
    cases fuel with
    | zero => exact evOk_nil
    | succ f => exact ih f (Nat.lt_succ_self f) cfg2 r c

/-- The side-load function at any fuel only returns resolver events. -/
theorem sideLoadAt_events (fuel : Nat) :
    ∀ (cfg : RConfig) (r : String) (c : Schema),
      EvOk (sideLoadAt fuel cfg r c).2 := by
  intro cfg r c
  cases fuel with
  | zero => exact evOk_nil
  | succ f => exact resolveReference_events f cfg r c

/-- C1: `ResolveReference` and its traverser `resolveRef` never mutate the
input schema tree: every slot write recorded during resolution (the event
log pairs each slot's value before the visit with the value written back)
writes back exactly the value that was already there, so the starting
schema and every reachable subschema are value-equal before and after the
call, and in particular no `$ref` member is ever cleared. -/
theorem c1_resolver_no_mutation (fuel : Nat) (cfg : RConfig) (ref : String)
    (current : Schema) (path : List String) (pos : Nat) :
    (∀ ev ∈ (resolveReference fuel cfg ref current).2, ev.1 = ev.2) ∧
    (∀ ev ∈ (resolveRef fuel cfg (some current) path pos).2, ev.1 = ev.2) :=
  ⟨resolveReference_events fuel cfg ref current,
    resolveRefWith_events (sideLoadAt fuel) (sideLoadAt_events fuel) _ _ _ _ _ _⟩

theorem c1_resolver_no_mutation_witness :
    ((Schema.empty, Schema.empty) : MutEvent) ∈
      (resolveReference 1 {} "#" Schema.empty).2 ∧
    ((Schema.empty, Schema.empty) : MutEvent).1 =
      ((Schema.empty, Schema.empty) : MutEvent).2 := by
  have h : (resolveReference 1 {} "#" Schema.empty).2 =
      (Schema.empty, Schema.empty) ::
        (resolveReference 1 {} "#" Schema.empty).2.tail := rfl
  have hmem : ((Schema.empty, Schema.empty) : MutEvent) ∈
      (resolveReference 1 {} "#" Schema.empty).2 := by
    rw [h]
    exact List.mem_cons_self _ _
  exact ⟨hmem, (c1_resolver_no_mutation 1 {} "#" Schema.empty [] 0).1 _ hmem⟩

/-! ## C5: `$id` records and re-homing of nested computations -/

theorem string_append_left_cancel {p a b : String} (h : p ++ a = p ++ b) :
    a = b := by
  have hd : p.data ++ a.data = p.data ++ b.data := by
    have h2 := congrArg String.data h
    simpa [String.data_append] using h2
  exact String.ext (List.append_cancel_left hd)

theorem append_ne_of_ne_empty {p k : String} (hk : k ≠ "") : p ++ k ≠ p := by
  intro h
  apply hk
  have hd : p.data ++ k.data = p.data ++ [] := by
    have h2 := congrArg String.data h
    simpa [String.data_append] using h2
  exact String.ext (List.append_cancel_left hd)

theorem alGet_mem {α : Type} :
    ∀ (m : List (String × α)) (k : String) (v : α),
      alGet m k = some v → (k, v) ∈ m := by
  intro m
  induction m with
  | nil =>
    intro k v h
    simp [alGet] at h
  | cons hd t ih =>
    intro k v h
    rcases hd with ⟨k0, v0⟩
    simp only [alGet] at h
    by_cases hk : k0 = k
    · rw [if_pos hk] at h
      subst hk
      injection h with hv
      subst hv
      exact List.mem_cons_self _ _
    · rw [if_neg hk] at h
      exact List.mem_cons_of_mem _ (ih k v h)

/-- A key none of the folded insertions touches keeps its binding. -/
theorem alGet_foldl_alSet_notin (ptr : String)
    (G : String × Identifiers → Identifiers) :
    ∀ (l m : List (String × Identifiers)) (k2 : String),
      (∀ kv ∈ l, ptr ++ kv.1 ≠ k2) →
      alGet (l.foldl (fun acc kv => alSet acc (ptr ++ kv.1) (G kv)) m) k2 =
        alGet m k2 := by
  intro l
  induction l with
  | nil =>
    intro m k2 _
    rfl
  | cons hd t ih =>
    intro m k2 hne
    simp only [List.foldl_cons]
    rw [ih _ k2 (fun kv hkv => hne kv (List.mem_cons_of_mem _ hkv))]
    exact alGet_alSet_ne m (ptr ++ hd.1) k2 (G hd)
      (fun h => hne hd (List.mem_cons_self _ _) h.symm)

/-- Looking up a folded re-homed entry under distinct source keys. -/
theorem alGet_foldl_alSet (ptr : String)
    (G : String × Identifiers → Identifiers) :
    ∀ (l m : List (String × Identifiers)) (k : String) (v : Identifiers),
      (l.map Prod.fst).Nodup → (k, v) ∈ l →
      alGet (l.foldl (fun acc kv => alSet acc (ptr ++ kv.1) (G kv)) m)
        (ptr ++ k) = some (G (k, v)) := by
  intro l
  induction l with
  | nil =>
    intro m k v _ hmem
    simp at hmem
  | cons hd t ih =>
    intro m k v hnd hmem
    have hnd1 : hd.1 ∉ t.map Prod.fst := (List.nodup_cons.mp hnd).1
    have hnd2 : (t.map Prod.fst).Nodup := (List.nodup_cons.mp hnd).2
    simp only [List.foldl_cons]
    rcases List.mem_cons.mp hmem with heq | hmem2
    · subst heq
      have hnotin : ∀ kv ∈ t, ptr ++ kv.1 ≠ ptr ++ k := by
        intro kv hkv h
        have h2 : kv.1 = k := string_append_left_cancel h
        have h3 : kv.1 ∈ t.map Prod.fst := List.mem_map_of_mem Prod.fst hkv
        rw [h2] at h3
        exact hnd1 h3
      rw [alGet_foldl_alSet_notin ptr G t _ _ hnotin]
      exact alGet_alSet_self _ _ _
    · have hk : hd.1 ≠ k := by
        intro h
        apply hnd1
        rw [h]
        exact List.mem_map_of_mem Prod.fst
          (show ((k, v) : String × Identifiers) ∈ t from hmem2)
      exact ih _ k v hnd2 hmem2

/-- **C5** (confirmed).  At a non-root node with a non-empty `$id`,
`ComputeIdentifiers`'s visitor stores a record for the node whose
`base_uri` is the `$id` resolved against the enclosing base and whose
`canonical_pointer_uri` is `base_uri ++ "#"`, and re-homes every record
`k → v` of the recursive sub-computation to key `ptr ++ k` with the outer
URI `base ++ "#" ++ ptr ++ k` appended to `v`'s
`enclosing_resource_uris`.  The last conjunct is the claim's concrete
instance: in the S6 tree the record at `/$defs/B/$defs/X` has exactly the
four claimed fields. -/
theorem c5_id_rehoming
    (subCompute : Schema →
      List (String × Identifiers) × Option String × List MutEvent)
    (base : GoURL) (ptr : String) (s : Schema) (st : IdSt)
    (hptr : ptr ≠ "/") (hid : s.id ≠ "")
    (hnodup : (((subCompute
        (s.withId ((base.resolveReference (urlParse s.id)).toString))).1.map
          Prod.fst)).Nodup) :
    (∃ ids, alGet ((idVisitWith subCompute base ptr s st).2.2).1 ptr =
        some ids ∧
      ids.baseURI = (base.resolveReference (urlParse s.id)).toString ∧
      ids.canonResourcePointerURI =
        (base.resolveReference (urlParse s.id)).toString ++ "#") ∧
    (∀ k v,
      alGet (subCompute
        (s.withId ((base.resolveReference (urlParse s.id)).toString))).1 k =
          some v →
      k ≠ "" →
      alGet ((idVisitWith subCompute base ptr s st).2.2).1 (ptr ++ k) =
        some { v with enclosingResourceURIs :=
          v.enclosingResourceURIs ++ [base.toString ++ "#" ++ ptr ++ k] }) ∧
    alGet (computeIdentifiers 5 fxS6root).1 "/$defs/B/$defs/X" =
      some { baseURI := "https://example.com/other.json",
             canonResourcePlainURI := "https://example.com/other.json#bar",
             canonResourcePointerURI := "https://example.com/other.json#/$defs/X",
             enclosingResourceURIs :=
               ["https://example.com/root.json#/$defs/B/$defs/X"] } := by
  have hcond : ¬ (ptr = "/" ∨ (s.id = "" ∧ s.anchor = "")) := by
    simp [hptr, hid]
  refine ⟨?_, ?_, by rfl⟩
  · simp only [idVisitWith, if_neg hcond, if_pos hid]
    refine ⟨_, alGet_alSet_self _ _ _, ?_, ?_⟩ <;> split_ifs <;> rfl
  · intro k v halget hk
    simp only [idVisitWith, if_neg hcond, if_pos hid]
    rw [alGet_alSet_ne _ ptr (ptr ++ k) _ (append_ne_of_ne_empty hk)]
    exact alGet_foldl_alSet ptr
      (fun kv => { kv.2 with enclosingResourceURIs :=
        kv.2.enclosingResourceURIs ++ [base.toString ++ "#" ++ ptr ++ kv.1] })
      _ _ k v hnodup (alGet_mem _ k v halget)

theorem c5_id_rehoming_witness :
    ∃ ids,
      alGet ((idVisitWith
        (fun _ => (([] : List (String × Identifiers)), (none : Option String),
          ([] : List MutEvent)))
        (urlParse "") "/a" fxC5s (([], []) : IdSt)).2.2).1 "/a" = some ids ∧
      ids.baseURI = ((urlParse "").resolveReference (urlParse fxC5s.id)).toString ∧
      ids.canonResourcePointerURI =
        ((urlParse "").resolveReference (urlParse fxC5s.id)).toString ++ "#" :=
  (c5_id_rehoming
    (fun _ => (([] : List (String × Identifiers)), (none : Option String),
      ([] : List MutEvent)))
    (urlParse "") "/a" fxC5s (([], []) : IdSt)
    (by decide) (by decide) (by simp)).1

/-! ## C2: resolving "#" and "" -/

/-- On an exhausted path, a `$ref`-free schema resolves to itself. -/
theorem resolveRefWith_noref_exhausted (sideLoadFn : SideLoadFn) (fuel : Nat)
    (cfg : RConfig) (cur : Schema) (path : List String) (pos : Nat)
    (h : cur.ref = "") :
    resolveRefWith sideLoadFn fuel cfg (some cur) path pos [] =
      (.ok (some cur), []) := by
  rw [resolveRefWith_eq_nil]
  simp [resolveRefNilBody, h]

/-! ## C3: walker completeness.  String infrastructure: benign segments,
`path.Join` on benign pointers, and `getUnescapedPath` as its inverse. -/

/-- A benign pointer segment: non-empty, no `/`, no `~`, and none of the
`path.Clean`-active segments `.` and `..`. -/
def goodSegChars (l : List Char) : Prop :=
  l ≠ [] ∧ '/' ∉ l ∧ '~' ∉ l ∧ l ≠ ['.'] ∧ l ≠ ['.', '.']

instance (l : List Char) : Decidable (goodSegChars l) := by
  unfold goodSegChars
  infer_instance

/-- A benign map key. -/
def goodKey (n : String) : Prop := goodSegChars n.data

instance (n : String) : Decidable (goodKey n) := by
  unfold goodKey
  infer_instance

/-- The canonical walker pointer of a segment list. -/
def ptrOfSegs (segs : List (List Char)) : String :=
  String.mk ('/' :: joinCh '/' segs)

theorem cleanSegsAux_benign (rooted : Bool) :
    ∀ (l stack : List (List Char)),
      (∀ seg ∈ l, seg = [] ∨ (seg ≠ ['.'] ∧ seg ≠ ['.', '.'])) →
      cleanSegsAux rooted stack l = stack ++ l.filter (fun x => x ≠ []) := by
  intro l
  induction l with
  | nil =>
    intro stack _
    simp [cleanSegsAux]
  | cons seg rest ih =>
    intro stack hl
    have hrest : ∀ x ∈ rest, x = [] ∨ (x ≠ ['.'] ∧ x ≠ ['.', '.']) :=
      fun x hx => hl x (List.mem_cons_of_mem _ hx)
    by_cases hne : seg = []
    · subst hne
      rw [show cleanSegsAux rooted stack ([] :: rest) =
          cleanSegsAux rooted stack rest from by simp [cleanSegsAux]]
      rw [ih stack hrest]
      simp
    · rcases hl seg (List.mem_cons_self _ _) with hseg | ⟨h1, h2⟩
      · exact absurd hseg hne
      · rw [show cleanSegsAux rooted stack (seg :: rest) =
            cleanSegsAux rooted (stack ++ [seg]) rest from by
          simp only [cleanSegsAux]
          rw [if_neg (by simp [hne, h1]), if_neg h2]]
        rw [ih _ hrest]
        simp [hne]

theorem splitCh_no_sep (sep : Char) :
    ∀ (xs : List Char), sep ∉ xs → splitCh sep xs = [xs] := by
  intro xs
  induction xs with
  | nil => intro _; rfl
  | cons c cs ih =>
    intro h
    have hc : c ≠ sep := fun he => h (he ▸ List.mem_cons_self _ _)
    have hcs : sep ∉ cs := fun hm => h (List.mem_cons_of_mem _ hm)
    simp only [splitCh, if_neg hc, ih hcs]

theorem splitCh_append (sep : Char) :
    ∀ (xs ys : List Char), sep ∉ xs →
      splitCh sep (xs ++ sep :: ys) = xs :: splitCh sep ys := by
  intro xs
  induction xs with
  | nil =>
    intro ys _
    simp [splitCh]
  | cons c cs ih =>
    intro ys h
    have hc : c ≠ sep := fun he => h (he ▸ List.mem_cons_self _ _)
    have hcs : sep ∉ cs := fun hm => h (List.mem_cons_of_mem _ hm)
    show splitCh sep (c :: (cs ++ sep :: ys)) = (c :: cs) :: splitCh sep ys
    simp only [splitCh, if_neg hc]
    rw [ih ys hcs]

theorem splitCh_joinCh_append (sep : Char) :
    ∀ (segs : List (List Char)) (R : List Char), segs ≠ [] →
      (∀ x ∈ segs, sep ∉ x) →
      splitCh sep (joinCh sep segs ++ sep :: R) = segs ++ splitCh sep R := by
  intro segs
  induction segs with
  | nil => intro R h; exact absurd rfl h
  | cons x t ih =>
    intro R _ hm
    cases t with
    | nil =>
      simp only [joinCh]
      rw [splitCh_append sep x R (hm x (List.mem_cons_self _ _))]
      rfl
    | cons y t2 =>
      simp only [joinCh]
      rw [List.append_assoc, List.cons_append]
      rw [splitCh_append sep x _ (hm x (List.mem_cons_self _ _))]
      rw [ih R (by simp) (fun z hz => hm z (List.mem_cons_of_mem _ hz))]
      rfl

theorem splitCh_joinCh (sep : Char) :
    ∀ (segs : List (List Char)), segs ≠ [] → (∀ x ∈ segs, sep ∉ x) →
      splitCh sep (joinCh sep segs) = segs := by
  intro segs
  induction segs with
  | nil => intro h; exact absurd rfl h
  | cons x t ih =>
    intro _ hm
    cases t with
    | nil => exact splitCh_no_sep sep x (hm x (List.mem_cons_self _ _))
    | cons y t2 =>
      simp only [joinCh]
      rw [splitCh_append sep x _ (hm x (List.mem_cons_self _ _))]
      rw [ih (by simp) (fun z hz => hm z (List.mem_cons_of_mem _ hz))]

theorem joinCh_ne_nil (sep : Char) :
    ∀ (segs : List (List Char)), segs ≠ [] → (∀ x ∈ segs, x ≠ []) →
      joinCh sep segs ≠ [] := by
  intro segs
  induction segs with
  | nil => intro h; exact absurd rfl h
  | cons x t _ =>
    intro _ hm
    cases t with
    | nil => exact hm x (List.mem_cons_self _ _)
    | cons y t2 =>
      simp only [joinCh]
      intro h
      exact hm x (List.mem_cons_self _ _) (List.append_eq_nil.mp h).1

theorem dropLeadCh_id {c : Char} {l : List Char} (h : l.head? ≠ some c) :
    dropLeadCh c l = l := by
  cases l with
  | nil => rfl
  | cons d t =>
    have hd : d ≠ c := fun he => h (by simp [he])
    simp [dropLeadCh, hd]

theorem dropTrailCh_id {c : Char} {l : List Char} (h : l.getLast? ≠ some c) :
    dropTrailCh c l = l := by
  unfold dropTrailCh
  rw [dropLeadCh_id (by rwa [List.head?_reverse])]
  exact List.reverse_reverse l

theorem getLast?_cons_ne_nil {α : Type} {a : α} {l : List α} (h : l ≠ []) :
    (a :: l).getLast? = l.getLast? := by
  cases l with
  | nil => exact absurd rfl h
  | cons b t => exact List.getLast?_cons_cons

theorem joinCh_getLast_ne (sep c0 : Char) :
    ∀ (segs : List (List Char)), segs ≠ [] →
      (∀ x ∈ segs, x ≠ [] ∧ c0 ∉ x) →
      (joinCh sep segs).getLast? ≠ some c0 := by
  intro segs
  induction segs with
  | nil => intro h; exact absurd rfl h
  | cons x t ih =>
    intro _ hm
    cases t with
    | nil =>
      intro hlast
      rcases (hm x (List.mem_cons_self _ _)) with ⟨hne, hnot⟩
      exact hnot (List.mem_of_mem_getLast? hlast)
    | cons y t2 =>
      simp only [joinCh]
      have hj : joinCh sep (y :: t2) ≠ [] :=
        joinCh_ne_nil sep _ (by simp) (fun z hz => (hm z (List.mem_cons_of_mem _ hz)).1)
      rw [List.getLast?_append, getLast?_cons_ne_nil hj]
      cases hg : (joinCh sep (y :: t2)).getLast? with
      | none => exact absurd (List.getLast?_eq_none_iff.mp hg) hj
      | some a =>
        have h2 := ih (by simp) (fun z hz => hm z (List.mem_cons_of_mem _ hz))
        rw [hg] at h2
        simpa [Option.or] using h2

theorem replacePair_id (a b : Char) (rep : List Char) :
    ∀ (l : List Char), a ∉ l → replacePair a b rep l = l := by
  intro l
  induction l with
  | nil => intro _; rfl
  | cons c t ih =>
    intro h
    have hc : c ≠ a := fun he => h (he ▸ List.mem_cons_self _ _)
    have ht : a ∉ t := fun hm => h (List.mem_cons_of_mem _ hm)
    cases t with
    | nil => rfl
    | cons d t2 =>
      simp only [replacePair]
      rw [if_neg (by simp [hc]), ih ht]


theorem pathClean_rooted (R : List Char) (M : List (List Char))
    (hsplit : splitCh '/' R = M)
    (hM : ∀ x ∈ M, x = [] ∨ (x ≠ ['.'] ∧ x ≠ ['.', '.']))
    (hMf : M.filter (fun x => x ≠ []) ≠ []) :
    pathClean (String.mk ('/' :: R)) =
      String.mk ('/' :: joinCh '/' (M.filter (fun x => x ≠ []))) := by
  have h0 : String.mk ('/' :: R) ≠ "" := by
    intro h
    have h2 := congrArg String.data h
    simp at h2
  simp only [pathClean, if_neg h0]
  have hsp : splitCh '/' ('/' :: R) = [] :: M := by
    simp [splitCh, hsplit]
  have hclean : cleanSegsAux (decide (('/' :: R).head? = some '/')) []
      (splitCh '/' ('/' :: R)) = M.filter (fun x => x ≠ []) := by
    rw [hsp, cleanSegsAux_benign _ ([] :: M) [] ?_]
    · simp
    · intro x hx
      rcases List.mem_cons.mp hx with h | h
      · exact Or.inl h
      · exact hM x h
  rw [hclean, if_pos (by simp : ('/' :: R).head? = some '/'), if_neg hMf]


/-- `path.Join` on a benign pointer and a benign piece appends segments. -/
theorem pathJoin_benign (segs add : List (List Char))
    (hsegs : ∀ x ∈ segs, goodSegChars x) (hadd : ∀ x ∈ add, goodSegChars x)
    (haddne : add ≠ []) :
    pathJoin (ptrOfSegs segs) (String.mk (joinCh '/' add)) =
      ptrOfSegs (segs ++ add) := by
  have hqne : joinCh '/' add ≠ [] :=
    joinCh_ne_nil '/' add haddne (fun x hx => (hadd x hx).1)
  have hp : ptrOfSegs segs ≠ "" := by
    intro h
    have h2 := congrArg String.data h
    simp [ptrOfSegs] at h2
  have hq : String.mk (joinCh '/' add) ≠ "" := by
    intro h
    have h2 := congrArg String.data h
    simp at h2
    exact hqne h2
  have hfadd : add.filter (fun x => x ≠ []) = add := by
    rw [List.filter_eq_self]
    intro x hx
    simp [(hadd x hx).1]
  simp only [pathJoin]
  rw [if_neg (by simp [hp]), if_neg hp, if_neg hq]
  rw [show String.mk ((ptrOfSegs segs).data ++ '/' ::
      (String.mk (joinCh '/' add)).data) =
      String.mk ('/' :: (joinCh '/' segs ++ '/' :: joinCh '/' add)) from rfl]
  cases segs with
  | nil =>
    have hsplit : splitCh '/' (joinCh '/' ([] : List (List Char)) ++
        '/' :: joinCh '/' add) = [] :: add := by
      show splitCh '/' ('/' :: joinCh '/' add) = [] :: add
      rw [show splitCh '/' ('/' :: joinCh '/' add) =
          [] :: splitCh '/' (joinCh '/' add) from by simp [splitCh]]
      rw [splitCh_joinCh '/' add haddne (fun x hx => (hadd x hx).2.1)]
    rw [pathClean_rooted _ ([] :: add) hsplit ?_ ?_]
    · have hf2 : List.filter (fun x => !decide (x = [])) add = add := by
        rw [List.filter_eq_self]
        intro x hx
        simpa using (hadd x hx).1
      simp [ptrOfSegs, hf2]
    · intro x hx
      rcases List.mem_cons.mp hx with h | h
      · exact Or.inl h
      · exact Or.inr ⟨(hadd x h).2.2.2.1, (hadd x h).2.2.2.2⟩
    · simp only [List.filter_cons]
      rw [if_neg (by simp)]
      rw [hfadd]
      exact haddne
  | cons s0 st =>
    have hfull : ((s0 :: st) ++ add).filter (fun x => x ≠ []) =
        (s0 :: st) ++ add := by
      rw [List.filter_eq_self]
      intro x hx
      rcases List.mem_append.mp hx with h | h
      · simp [(hsegs x h).1]
      · simp [(hadd x h).1]
    have hsplit : splitCh '/' (joinCh '/' (s0 :: st) ++ '/' :: joinCh '/' add) =
        (s0 :: st) ++ add := by
      rw [splitCh_joinCh_append '/' (s0 :: st) _ (by simp)
        (fun x hx => (hsegs x hx).2.1)]
      rw [splitCh_joinCh '/' add haddne (fun x hx => (hadd x hx).2.1)]
    rw [pathClean_rooted _ ((s0 :: st) ++ add) hsplit ?_ ?_]
    · rw [hfull]
      rfl
    · intro x hx
      rcases List.mem_append.mp hx with h | h
      · exact Or.inr ⟨(hsegs x h).2.2.2.1, (hsegs x h).2.2.2.2⟩
      · exact Or.inr ⟨(hadd x h).2.2.2.1, (hadd x h).2.2.2.2⟩
    · rw [hfull]
      simp


/-- `getUnescapedPath` recovers the segments of a benign walker pointer. -/
theorem getUnescapedPath_ptrOfSegs (segs : List (List Char))
    (hsegs : ∀ x ∈ segs, goodSegChars x) :
    getUnescapedPath (ptrOfSegs segs) = segs.map String.mk := by
  simp only [getUnescapedPath]
  have h1 : dropLeadCh '/' (ptrOfSegs segs).data = joinCh '/' segs := by
    show dropLeadCh '/' ('/' :: joinCh '/' segs) = joinCh '/' segs
    simp [dropLeadCh]
  rw [h1]
  cases segs with
  | nil => rfl
  | cons s0 st =>
    have h2 : dropTrailCh '/' (joinCh '/' (s0 :: st)) = joinCh '/' (s0 :: st) :=
      dropTrailCh_id (joinCh_getLast_ne '/' '/' (s0 :: st) (by simp)
        (fun x hx => ⟨(hsegs x hx).1, (hsegs x hx).2.1⟩))
    rw [h2]
    have hne : joinCh '/' (s0 :: st) ≠ [] :=
      joinCh_ne_nil '/' _ (by simp) (fun x hx => (hsegs x hx).1)
    rw [if_neg hne]
    rw [splitCh_joinCh '/' _ (by simp) (fun x hx => (hsegs x hx).2.1)]
    apply List.map_congr_left
    intro x hx
    rw [replacePair_id _ _ _ x (hsegs x hx).2.2.1,
      replacePair_id _ _ _ x (hsegs x hx).2.2.1]


/-- The decimal value accumulated left to right (the arithmetic core of
`goAtoi`). -/
def arith (v : Nat) (c : Char) : Nat := v * 10 + (c.toNat - '0'.toNat)

/-- The value of the digits `Nat.toDigitsCore` prepends, folded onto `v`
(mirrors the fuel structure of `Nat.toDigitsCore`). -/
def pushD : Nat → Nat → Nat → Nat
  | 0, v, _ => v
  | fuel + 1, v, n =>
    if n / 10 = 0 then v * 10 + n else pushD fuel v (n / 10) * 10 + n % 10

theorem digitChar_val {m : Nat} (h : m < 10) :
    isAsciiDigit (Nat.digitChar m) = true ∧
    (Nat.digitChar m).toNat - '0'.toNat = m := by
  interval_cases m <;> exact ⟨by decide, by decide⟩

theorem isAsciiDigit_ne {c : Char} (h : isAsciiDigit c = true) :
    c ≠ '/' ∧ c ≠ '~' ∧ c ≠ '.' ∧ c ≠ '+' ∧ c ≠ '-' := by
  refine ⟨?_, ?_, ?_, ?_, ?_⟩ <;> intro he <;> rw [he] at h <;>
    exact absurd h (by decide)

theorem toDigitsCore_digits :
    ∀ (fuel n : Nat) (ds : List Char), (∀ c ∈ ds, isAsciiDigit c = true) →
      ∀ c ∈ Nat.toDigitsCore 10 fuel n ds, isAsciiDigit c = true := by
  intro fuel
  induction fuel with
  | zero => intro n ds hds; exact hds
  | succ f ih =>
    intro n ds hds c hc
    simp only [Nat.toDigitsCore] at hc
    split at hc
    · rcases List.mem_cons.mp hc with h | h
      · subst h
        exact (digitChar_val (Nat.mod_lt n (by norm_num))).1
      · exact hds c h
    · refine ih (n / 10) _ ?_ c hc
      intro c2 hc2
      rcases List.mem_cons.mp hc2 with h | h
      · subst h
        exact (digitChar_val (Nat.mod_lt n (by norm_num))).1
      · exact hds c2 h

theorem toDigitsCore_ne_nil :
    ∀ (fuel n : Nat) (ds : List Char), ds ≠ [] →
      Nat.toDigitsCore 10 fuel n ds ≠ [] := by
  intro fuel
  induction fuel with
  | zero => intro n ds h; exact h
  | succ f ih =>
    intro n ds h
    simp only [Nat.toDigitsCore]
    split
    · simp
    · exact ih (n / 10) _ (by simp)

theorem toDigits_ne_nil (n : Nat) : Nat.toDigits 10 n ≠ [] := by
  simp only [Nat.toDigits, Nat.toDigitsCore]
  split
  · simp
  · exact toDigitsCore_ne_nil _ _ _ (by simp)

theorem toDigitsCore_foldl :
    ∀ (fuel n : Nat) (ds : List Char) (v : Nat), n < 10 ^ fuel →
      (Nat.toDigitsCore 10 fuel n ds).foldl arith v =
        ds.foldl arith (pushD fuel v n) := by
  intro fuel
  induction fuel with
  | zero =>
    intro n ds v hn
    have h0 : n = 0 := by
      simpa using Nat.lt_one_iff.mp (by simpa using hn)
    simp [Nat.toDigitsCore, pushD]
  | succ f ih =>
    intro n ds v hn
    simp only [Nat.toDigitsCore, pushD]
    by_cases h : n / 10 = 0
    · rw [if_pos h, if_pos h]
      have hn10 : n < 10 := by omega
      simp only [List.foldl_cons]
      rw [show arith v (Nat.digitChar (n % 10)) = v * 10 + n from by
        unfold arith
        rw [(digitChar_val (Nat.mod_lt n (by norm_num))).2,
          Nat.mod_eq_of_lt hn10]]
    · rw [if_neg h, if_neg h]
      rw [ih (n / 10) _ v ((Nat.div_lt_iff_lt_mul (by norm_num)).mpr
        (by rw [pow_succ] at hn; exact hn))]
      simp only [List.foldl_cons]
      rw [show arith (pushD f v (n / 10)) (Nat.digitChar (n % 10)) =
          pushD f v (n / 10) * 10 + n % 10 from by
        unfold arith
        rw [(digitChar_val (Nat.mod_lt n (by norm_num))).2]]

theorem pushD_zero : ∀ (fuel n : Nat), n < 10 ^ fuel → pushD fuel 0 n = n := by
  intro fuel
  induction fuel with
  | zero =>
    intro n hn
    have h0 : n = 0 := by simpa using Nat.lt_one_iff.mp (by simpa using hn)
    simp [pushD, h0]
  | succ f ih =>
    intro n hn
    simp only [pushD]
    by_cases h : n / 10 = 0
    · rw [if_pos h]
      omega
    · rw [if_neg h, ih (n / 10) ((Nat.div_lt_iff_lt_mul (by norm_num)).mpr
        (by rw [pow_succ] at hn; exact hn))]
      omega

theorem digitsVal_all_digits :
    ∀ (ds : List Char) (v : Nat), (∀ c ∈ ds, isAsciiDigit c = true) →
      ds.foldl (fun acc c => acc.bind fun m =>
        if isAsciiDigit c then some (m * 10 + (c.toNat - '0'.toNat)) else none)
        (some v) =
      some (ds.foldl arith v) := by
  intro ds
  induction ds with
  | nil => intro v _; rfl
  | cons c t ih =>
    intro v h
    simp only [List.foldl_cons]
    rw [show ((some v).bind fun m =>
        if isAsciiDigit c then some (m * 10 + (c.toNat - '0'.toNat)) else none) =
        some (arith v c) from by
      simp [h c (List.mem_cons_self _ _), arith]]
    exact ih _ (fun c2 h2 => h c2 (List.mem_cons_of_mem _ h2))

theorem n_lt_ten_pow (n : Nat) : n < 10 ^ (n + 1) := by
  calc n < 2 ^ n := Nat.lt_two_pow n
    _ ≤ 10 ^ n := Nat.pow_le_pow_left (by norm_num) n
    _ ≤ 10 ^ (n + 1) := Nat.pow_le_pow_right (by norm_num) (Nat.le_succ n)

/-- `strconv.Atoi` inverts `strconv.Itoa` on naturals. -/
theorem goAtoi_toString (n : Nat) : goAtoi (toString n) = some (Int.ofNat n) := by
  have hdata : (toString n).data = Nat.toDigits 10 n := rfl
  have hdigs : ∀ c ∈ Nat.toDigits 10 n, isAsciiDigit c = true :=
    toDigitsCore_digits _ _ [] (by simp)
  rcases hl : Nat.toDigits 10 n with _ | ⟨c, ds⟩
  · exact absurd hl (toDigits_ne_nil n)
  · have hc : isAsciiDigit c = true := hdigs c (hl ▸ List.mem_cons_self _ _)
    have hfold2 : (Nat.toDigits 10 n).foldl (fun acc c2 => acc.bind fun m =>
        if isAsciiDigit c2 then some (m * 10 + (c2.toNat - '0'.toNat))
        else none) (some 0) = some n := by
      rw [digitsVal_all_digits (Nat.toDigits 10 n) 0 hdigs]
      rw [show (Nat.toDigits 10 n).foldl arith 0 =
          ([] : List Char).foldl arith (pushD (n + 1) 0 n) from
        toDigitsCore_foldl (n + 1) n [] 0 (n_lt_ten_pow n)]
      simp [pushD_zero (n + 1) n (n_lt_ten_pow n)]
    rw [hl] at hfold2
    simp only [goAtoi, hdata, hl]
    split
    · next heq => exact absurd heq (by simp)
    · next heq =>
        exfalso
        injection heq with h1 _
        rw [h1] at hc
        exact absurd hc (by decide)
    · next heq =>
        exfalso
        injection heq with h1 _
        rw [h1] at hc
        exact absurd hc (by decide)
    · next =>
        simp only [goAtoi.digitsVal, if_neg (by simp : ¬(c :: ds) = [])]
        rw [hfold2]
        rfl


/-- The pointer segments a child slot contributes (one for single-schema
keywords, two for array and map applicators). -/
def segsOfKey : ChildKey → List String
  | .notK => ["not"]
  | .ifK => ["if"]
  | .thenK => ["then"]
  | .elseK => ["else"]
  | .itemsK => ["items"]
  | .containsK => ["contains"]
  | .addPropsK => ["additionalProperties"]
  | .propNamesK => ["propertyNames"]
  | .unevalItemsK => ["unevaluatedItems"]
  | .unevalPropsK => ["unevaluatedProperties"]
  | .contentK => ["contentSchema"]
  | .allOfK i => ["allOf", toString i]
  | .anyOfK i => ["anyOf", toString i]
  | .oneOfK i => ["oneOf", toString i]
  | .prefixItemsK i => ["prefixItems", toString i]
  | .defsK n => ["$defs", n]
  | .depSchemasK n => ["dependentSchemas", n]
  | .propsK n => ["properties", n]
  | .patPropsK n => ["patternProperties", n]

theorem keywordOf_eq_join (k : ChildKey) :
    keywordOf k = String.mk (joinCh '/' ((segsOfKey k).map String.data)) := by
  cases k <;> rfl

theorem goodSegChars_toString_nat (i : Nat) : goodSegChars (toString i).data := by
  have hdata : (toString i).data = Nat.toDigits 10 i := rfl
  have hdigs : ∀ c ∈ Nat.toDigits 10 i, isAsciiDigit c = true :=
    toDigitsCore_digits (i + 1) i [] (by simp)
  rw [hdata]
  refine ⟨toDigits_ne_nil i, ?_, ?_, ?_, ?_⟩
  · intro hm
    exact (isAsciiDigit_ne (hdigs _ hm)).1 rfl
  · intro hm
    exact (isAsciiDigit_ne (hdigs _ hm)).2.1 rfl
  · intro h
    have hm : '.' ∈ Nat.toDigits 10 i := by rw [h]; simp
    exact (isAsciiDigit_ne (hdigs _ hm)).2.2.1 rfl
  · intro h
    have hm : '.' ∈ Nat.toDigits 10 i := by rw [h]; simp
    exact (isAsciiDigit_ne (hdigs _ hm)).2.2.1 rfl

/-- A benign tree: no `$ref` anywhere, no `unevaluatedItems`,
`unevaluatedProperties` or `contentSchema` members (the resolver cannot
navigate them, see C7), and every map key benign (non-empty, free of `/`
and `~`, not `.` or `..`). -/
inductive Benign : Schema → Prop where
  | mk (s : Schema)
      (href : s.ref = "")
      (hu1 : s.unevaluatedItems = none)
      (hu2 : s.unevaluatedProperties = none)
      (hu3 : s.contentSchema = none)
      (hkeys : ∀ kv ∈ s.defs ++ s.dependentSchemas ++ s.properties ++
        s.patternProperties, goodKey kv.1)
      (hch : ∀ k c, getChild s k = some c → Benign c) : Benign s

/-- `Desc s rel t`: the subschema slot reached from `s` by the pointer
segments `rel` holds `t`. -/
inductive Desc : Schema → List String → Schema → Prop where
  | refl (s : Schema) : Desc s [] s
  | step (s : Schema) (k : ChildKey) (c : Schema) (rel : List String)
      (t : Schema) : getChild s k = some c → Desc c rel t →
      Desc s (segsOfKey k ++ rel) t


theorem desc_resolve (sideLoadFn : SideLoadFn) :
    ∀ (s : Schema) (rel : List String) (t : Schema), Desc s rel t → Benign s →
      ∀ (fuel : Nat), rel.length + 1 ≤ fuel →
      ∀ (cfg : RConfig) (path : List String) (pos : Nat),
        (resolveRefWith sideLoadFn fuel cfg (some s) path pos rel).1 =
          .ok (some t) := by
  intro s rel t hdesc
  induction hdesc with
  | refl s =>
    intro hb fuel hfuel cfg path pos
    cases hb with
    | mk _ href _ _ _ _ _ =>
      rw [resolveRefWith_noref_exhausted sideLoadFn fuel cfg s path pos href]
  | step s k c rel t hchild hdesc2 ih =>
    intro hb fuel hfuel cfg path pos
    have hbc : Benign c := by
      cases hb with
      | mk _ _ _ _ _ _ hch => exact hch k c hchild
    have href : s.ref = "" := by
      cases hb with
      | mk _ h2 _ _ _ _ _ => exact h2
    obtain ⟨f, rfl⟩ : ∃ f, fuel = f + 1 := ⟨fuel - 1, by omega⟩
    have hstep : resolveRefStep sideLoadFn cfg s =
        ((if s.id ≠ "" then { cfg with root := some s } else cfg),
          (.ok (some s), [])) := by
      simp [resolveRefStep, href]
    simp only [List.length_append] at hfuel
    cases k with
    | notK =>
      rw [show segsOfKey ChildKey.notK ++ rel = "not" :: rel from rfl]
      rw [resolveRefWith_eq_cons]
      simp only [resolveRefConsBody, hstep]
      simp only [resolveRefDispatch]
      rw [if_neg (by decide), if_neg (by decide), if_neg (by decide),
        if_pos (by decide)]
      rw [show singleChild "not" s = some c from hchild]
      exact ih hbc f (by simp [segsOfKey] at hfuel; omega) _ path (pos + 1)
    | ifK =>
      rw [show segsOfKey ChildKey.ifK ++ rel = "if" :: rel from rfl]
      rw [resolveRefWith_eq_cons]
      simp only [resolveRefConsBody, hstep]
      simp only [resolveRefDispatch]
      rw [if_neg (by decide), if_neg (by decide), if_neg (by decide),
        if_pos (by decide)]
      rw [show singleChild "if" s = some c from hchild]
      exact ih hbc f (by simp [segsOfKey] at hfuel; omega) _ path (pos + 1)
    | thenK =>
      rw [show segsOfKey ChildKey.thenK ++ rel = "then" :: rel from rfl]
      rw [resolveRefWith_eq_cons]
      simp only [resolveRefConsBody, hstep]
      simp only [resolveRefDispatch]
      rw [if_neg (by decide), if_neg (by decide), if_neg (by decide),
        if_pos (by decide)]
      rw [show singleChild "then" s = some c from hchild]
      exact ih hbc f (by simp [segsOfKey] at hfuel; omega) _ path (pos + 1)
    | elseK =>
      rw [show segsOfKey ChildKey.elseK ++ rel = "else" :: rel from rfl]
      rw [resolveRefWith_eq_cons]
      simp only [resolveRefConsBody, hstep]
      simp only [resolveRefDispatch]
      rw [if_neg (by decide), if_neg (by decide), if_neg (by decide),
        if_pos (by decide)]
      rw [show singleChild "else" s = some c from hchild]
      exact ih hbc f (by simp [segsOfKey] at hfuel; omega) _ path (pos + 1)
    | itemsK =>
      rw [show segsOfKey ChildKey.itemsK ++ rel = "items" :: rel from rfl]
      rw [resolveRefWith_eq_cons]
      simp only [resolveRefConsBody, hstep]
      simp only [resolveRefDispatch]
      rw [if_neg (by decide), if_neg (by decide), if_neg (by decide),
        if_pos (by decide)]
      rw [show singleChild "items" s = some c from hchild]
      exact ih hbc f (by simp [segsOfKey] at hfuel; omega) _ path (pos + 1)
    | containsK =>
      rw [show segsOfKey ChildKey.containsK ++ rel = "contains" :: rel from rfl]
      rw [resolveRefWith_eq_cons]
      simp only [resolveRefConsBody, hstep]
      simp only [resolveRefDispatch]
      rw [if_neg (by decide), if_neg (by decide), if_neg (by decide),
        if_pos (by decide)]
      rw [show singleChild "contains" s = some c from hchild]
      exact ih hbc f (by simp [segsOfKey] at hfuel; omega) _ path (pos + 1)
    | addPropsK =>
      rw [show segsOfKey ChildKey.addPropsK ++ rel = "additionalProperties" :: rel from rfl]
      rw [resolveRefWith_eq_cons]
      simp only [resolveRefConsBody, hstep]
      simp only [resolveRefDispatch]
      rw [if_neg (by decide), if_neg (by decide), if_neg (by decide),
        if_pos (by decide)]
      rw [show singleChild "additionalProperties" s = some c from hchild]
      exact ih hbc f (by simp [segsOfKey] at hfuel; omega) _ path (pos + 1)
    | propNamesK =>
      rw [show segsOfKey ChildKey.propNamesK ++ rel = "propertyNames" :: rel from rfl]
      rw [resolveRefWith_eq_cons]
      simp only [resolveRefConsBody, hstep]
      simp only [resolveRefDispatch]
      rw [if_neg (by decide), if_neg (by decide), if_neg (by decide),
        if_pos (by decide)]
      rw [show singleChild "propertyNames" s = some c from hchild]
      exact ih hbc f (by simp [segsOfKey] at hfuel; omega) _ path (pos + 1)
    | unevalItemsK =>
      exfalso
      cases hb with
      | mk _ _ hu1 hu2 hu3 _ _ =>
        rw [show getChild s ChildKey.unevalItemsK = s.unevaluatedItems from rfl] at hchild
        rw [hu1] at hchild
        exact Option.noConfusion hchild
    | unevalPropsK =>
      exfalso
      cases hb with
      | mk _ _ hu1 hu2 hu3 _ _ =>
        rw [show getChild s ChildKey.unevalPropsK = s.unevaluatedProperties from rfl] at hchild
        rw [hu2] at hchild
        exact Option.noConfusion hchild
    | contentK =>
      exfalso
      cases hb with
      | mk _ _ hu1 hu2 hu3 _ _ =>
        rw [show getChild s ChildKey.contentK = s.contentSchema from rfl] at hchild
        rw [hu3] at hchild
        exact Option.noConfusion hchild
    | allOfK i =>
      rw [show segsOfKey (ChildKey.allOfK i) ++ rel =
        "allOf" :: (toString i :: rel) from rfl]
      rw [resolveRefWith_eq_cons]
      simp only [resolveRefConsBody, hstep]
      simp only [resolveRefDispatch]
      rw [if_neg (by decide), if_pos (by decide)]
      simp only [List.head?_cons, List.tail_cons]
      have hi : s.core.allOf.get? i = some c := hchild
      have hlen : i < s.core.allOf.length := by
        by_contra hcon
        push_neg at hcon
        rw [List.get?_eq_none.mpr hcon] at hi
        exact Option.noConfusion hi
      have hidx : colIndex (colOf "allOf" s) (toString i) = .ok c := by
        simp only [colIndex, goAtoi_toString]
        rw [if_neg (by
          simp only [show colOf "allOf" s = s.core.allOf from rfl,
            Int.ofNat_eq_natCast]
          omega)]
        rw [if_neg (by simp)]
        rw [show (colOf "allOf" s).get? (Int.ofNat i).toNat = some c from hi]
        rfl
      rw [hidx]
      exact ih hbc f (by simp [segsOfKey] at hfuel; omega) _ path (pos + 2)
    | anyOfK i =>
      rw [show segsOfKey (ChildKey.anyOfK i) ++ rel =
        "anyOf" :: (toString i :: rel) from rfl]
      rw [resolveRefWith_eq_cons]
      simp only [resolveRefConsBody, hstep]
      simp only [resolveRefDispatch]
      rw [if_neg (by decide), if_pos (by decide)]
      simp only [List.head?_cons, List.tail_cons]
      have hi : s.core.anyOf.get? i = some c := hchild
      have hlen : i < s.core.anyOf.length := by
        by_contra hcon
        push_neg at hcon
        rw [List.get?_eq_none.mpr hcon] at hi
        exact Option.noConfusion hi
      have hidx : colIndex (colOf "anyOf" s) (toString i) = .ok c := by
        simp only [colIndex, goAtoi_toString]
        rw [if_neg (by
          simp only [show colOf "anyOf" s = s.core.anyOf from rfl,
            Int.ofNat_eq_natCast]
          omega)]
        rw [if_neg (by simp)]
        rw [show (colOf "anyOf" s).get? (Int.ofNat i).toNat = some c from hi]
        rfl
      rw [hidx]
      exact ih hbc f (by simp [segsOfKey] at hfuel; omega) _ path (pos + 2)
    | oneOfK i =>
      rw [show segsOfKey (ChildKey.oneOfK i) ++ rel =
        "oneOf" :: (toString i :: rel) from rfl]
      rw [resolveRefWith_eq_cons]
      simp only [resolveRefConsBody, hstep]
      simp only [resolveRefDispatch]
      rw [if_neg (by decide), if_pos (by decide)]
      simp only [List.head?_cons, List.tail_cons]
      have hi : s.core.oneOf.get? i = some c := hchild
      have hlen : i < s.core.oneOf.length := by
        by_contra hcon
        push_neg at hcon
        rw [List.get?_eq_none.mpr hcon] at hi
        exact Option.noConfusion hi
      have hidx : colIndex (colOf "oneOf" s) (toString i) = .ok c := by
        simp only [colIndex, goAtoi_toString]
        rw [if_neg (by
          simp only [show colOf "oneOf" s = s.core.oneOf from rfl,
            Int.ofNat_eq_natCast]
          omega)]
        rw [if_neg (by simp)]
        rw [show (colOf "oneOf" s).get? (Int.ofNat i).toNat = some c from hi]
        rfl
      rw [hidx]
      exact ih hbc f (by simp [segsOfKey] at hfuel; omega) _ path (pos + 2)
    | prefixItemsK i =>
      rw [show segsOfKey (ChildKey.prefixItemsK i) ++ rel =
        "prefixItems" :: (toString i :: rel) from rfl]
      rw [resolveRefWith_eq_cons]
      simp only [resolveRefConsBody, hstep]
      simp only [resolveRefDispatch]
      rw [if_neg (by decide), if_pos (by decide)]
      simp only [List.head?_cons, List.tail_cons]
      have hi : s.core.prefixItems.get? i = some c := hchild
      have hlen : i < s.core.prefixItems.length := by
        by_contra hcon
        push_neg at hcon
        rw [List.get?_eq_none.mpr hcon] at hi
        exact Option.noConfusion hi
      have hidx : colIndex (colOf "prefixItems" s) (toString i) = .ok c := by
        simp only [colIndex, goAtoi_toString]
        rw [if_neg (by
          simp only [show colOf "prefixItems" s = s.core.prefixItems from rfl,
            Int.ofNat_eq_natCast]
          omega)]
        rw [if_neg (by simp)]
        rw [show (colOf "prefixItems" s).get? (Int.ofNat i).toNat = some c from hi]
        rfl
      rw [hidx]
      exact ih hbc f (by simp [segsOfKey] at hfuel; omega) _ path (pos + 2)
    | defsK n =>
      rw [show segsOfKey (ChildKey.defsK n) ++ rel = "$defs" :: (n :: rel) from rfl]
      rw [resolveRefWith_eq_cons]
      simp only [resolveRefConsBody, hstep]
      simp only [resolveRefDispatch]
      rw [if_neg (by decide), if_neg (by decide), if_pos (by decide)]
      simp only [List.head?_cons, List.tail_cons]
      rw [show alGet (mapColOf "$defs" s) n = some c from hchild]
      exact ih hbc f (by simp [segsOfKey] at hfuel; omega) _ path (pos + 2)
    | depSchemasK n =>
      rw [show segsOfKey (ChildKey.depSchemasK n) ++ rel = "dependentSchemas" :: (n :: rel) from rfl]
      rw [resolveRefWith_eq_cons]
      simp only [resolveRefConsBody, hstep]
      simp only [resolveRefDispatch]
      rw [if_neg (by decide), if_neg (by decide), if_pos (by decide)]
      simp only [List.head?_cons, List.tail_cons]
      rw [show alGet (mapColOf "dependentSchemas" s) n = some c from hchild]
      exact ih hbc f (by simp [segsOfKey] at hfuel; omega) _ path (pos + 2)
    | propsK n =>
      rw [show segsOfKey (ChildKey.propsK n) ++ rel = "properties" :: (n :: rel) from rfl]
      rw [resolveRefWith_eq_cons]
      simp only [resolveRefConsBody, hstep]
      simp only [resolveRefDispatch]
      rw [if_neg (by decide), if_neg (by decide), if_pos (by decide)]
      simp only [List.head?_cons, List.tail_cons]
      rw [show alGet (mapColOf "properties" s) n = some c from hchild]
      exact ih hbc f (by simp [segsOfKey] at hfuel; omega) _ path (pos + 2)
    | patPropsK n =>
      rw [show segsOfKey (ChildKey.patPropsK n) ++ rel = "patternProperties" :: (n :: rel) from rfl]
      rw [resolveRefWith_eq_cons]
      simp only [resolveRefConsBody, hstep]
      simp only [resolveRefDispatch]
      rw [if_neg (by decide), if_neg (by decide), if_pos (by decide)]
      simp only [List.head?_cons, List.tail_cons]
      rw [show alGet (mapColOf "patternProperties" s) n = some c from hchild]
      exact ih hbc f (by simp [segsOfKey] at hfuel; omega) _ path (pos + 2)


/-! ## C2 (general form): URL and map lemmas -/

theorem cutCh_not_mem (c : Char) :
    ∀ (xs : List Char), c ∉ xs → cutCh c xs = (xs, [], false) := by
  intro xs
  induction xs with
  | nil => intro _; rfl
  | cons d t ih =>
    intro h
    have hd : d ≠ c := fun he => h (he ▸ List.mem_cons_self _ _)
    have ht : c ∉ t := fun hm => h (List.mem_cons_of_mem _ hm)
    simp only [cutCh, if_neg hd, ih ht]

theorem cutCh_append (c : Char) :
    ∀ (xs ys : List Char), c ∉ xs →
      cutCh c (xs ++ c :: ys) = (xs, ys, true) := by
  intro xs
  induction xs with
  | nil => intro ys _; simp [cutCh]
  | cons d t ih =>
    intro ys h
    have hd : d ≠ c := fun he => h (he ▸ List.mem_cons_self _ _)
    have ht : c ∉ t := fun hm => h (List.mem_cons_of_mem _ hm)
    show cutCh c (d :: (t ++ c :: ys)) = (d :: t, ys, true)
    simp only [cutCh, if_neg hd, ih ys ht]

theorem urlParse_fragment_of_not_mem {s : String} (h : '#' ∉ s.data) :
    (urlParse s).fragment = "" := by
  simp only [urlParse, cutCh_not_mem '#' s.data h]
  split_ifs <;> rfl

theorem urlParse_fragment_hash {b : String} (h : '#' ∉ b.data) :
    (urlParse (b ++ "#")).fragment = "" := by
  have hdata : (b ++ "#").data = b.data ++ '#' :: [] := rfl
  simp only [urlParse, hdata, cutCh_append '#' b.data [] h]
  split_ifs <;> rfl

theorem rr_fragment {u ref : GoURL} (hu : u.fragment = "")
    (hr : ref.fragment = "") :
    (u.resolveReference ref).fragment = "" := by
  simp only [GoURL.resolveReference]
  split_ifs <;> simp [hu, hr]

theorem noFrag_id {u : GoURL} (h : u.fragment = "") : u.noFrag = u := by
  cases u
  simp only [GoURL.noFrag]
  simp_all

theorem string_append_empty (s : String) : s ++ "" = s := by
  have h : (s ++ "").data = s.data := by simp [String.data_append]
  exact String.ext h

theorem hash_mem_append (a b : String) : '#' ∈ (a ++ "#" ++ b).data := by
  rw [show (a ++ "#" ++ b).data = (a.data ++ ['#']) ++ b.data from rfl]
  simp

theorem alGet_eq_none_of_keys {α : Type} :
    ∀ (m : List (String × α)) (k : String), (∀ kv ∈ m, kv.1 ≠ k) →
      alGet m k = none := by
  intro m
  induction m with
  | nil => intro k _; rfl
  | cons hd t ih =>
    intro k h
    simp only [alGet]
    rw [if_neg (h hd (List.mem_cons_self _ _))]
    exact ih k (fun kv hkv => h kv (List.mem_cons_of_mem _ hkv))

theorem alSet_append {α : Type} :
    ∀ (m : List (String × α)) (k : String) (v : α), alGet m k = none →
      alSet m k v = m ++ [(k, v)] := by
  intro m
  induction m with
  | nil => intro k v _; rfl
  | cons hd t ih =>
    intro k v h
    simp only [alGet] at h
    by_cases hk : hd.1 = k
    · rw [if_pos hk] at h
      exact absurd h (by simp)
    · rw [if_neg hk] at h
      show alSet (hd :: t) k v = hd :: (t ++ [(k, v)])
      rcases hd with ⟨k0, v0⟩
      simp only [alSet]
      rw [if_neg hk, ih k v h]

/-- The prefetch loop stores, under the base URI of a trailing
resource-root record, the resolution of that record's pointer. -/
theorem prefetch_last
    (resolveFn : List String → Except RErr (Option Schema) × List MutEvent) :
    ∀ (l0 : List (String × Identifiers)) (acc : List (String × Option Schema))
      (evs : List MutEvent) (e : String × Identifiers),
      e.2.baseURI ++ "#" = e.2.canonResourcePointerURI →
      alGet (prefetchLoopWith resolveFn (l0 ++ [e]) acc evs).1 e.2.baseURI =
        some (match (resolveFn (getUnescapedPath e.1)).1 with
          | .ok v => v
          | .error _ => none) := by
  intro l0
  induction l0 with
  | nil =>
    intro acc evs e he
    simp only [List.nil_append, prefetchLoopWith, if_pos he]
    exact alGet_alSet_self _ _ _
  | cons kv rest ih =>
    intro acc evs e he
    show alGet (prefetchLoopWith resolveFn (kv :: (rest ++ [e])) acc evs).1
      e.2.baseURI = _
    simp only [prefetchLoopWith]
    split_ifs
    · exact ih _ _ e he
    · exact ih _ _ e he


theorem append_eq_single {α : Type} :
    ∀ (a b : List α) (e : α), a ++ b = [e] →
      (a = [] ∧ b = [e]) ∨ (a = [e] ∧ b = []) := by
  intro a
  cases a with
  | nil => intro b e h; exact Or.inl ⟨rfl, h⟩
  | cons c t =>
    intro b e h
    simp only [List.cons_append, List.cons.injEq] at h
    rcases h with ⟨h1, h2⟩
    rcases List.append_eq_nil.mp h2 with ⟨h3, h4⟩
    exact Or.inr ⟨by rw [h1, h3], h4⟩

theorem append_ne_root {p : String} (x : String) (hp : p ≠ "") (hpr : p ≠ "/") :
    p ++ x ≠ "/" := by
  intro h
  have hd : p.data ++ x.data = ['/'] := by
    have h2 := congrArg String.data h
    simpa [String.data_append] using h2
  rcases append_eq_single _ _ _ hd with ⟨h1, _⟩ | ⟨h1, _⟩
  · exact hp (String.ext (by simpa using h1))
  · exact hpr (String.ext (by simpa using h1))

theorem cleanSegsAux_mem_ne_nil (rooted : Bool) :
    ∀ (l stack : List (List Char)), (∀ x ∈ stack, x ≠ []) →
      ∀ x ∈ cleanSegsAux rooted stack l, x ≠ [] := by
  intro l
  induction l with
  | nil =>
    intro stack h
    simpa [cleanSegsAux] using h
  | cons seg rest ih =>
    intro stack h x hx
    simp only [cleanSegsAux] at hx
    split at hx
    · exact ih stack h x hx
    · next h1 =>
      split at hx
      · next hdd =>
        split at hx
        · exact ih _ (fun y hy => h y (List.mem_of_mem_dropLast hy)) x hx
        · split at hx
          · exact ih stack h x hx
          · refine ih _ (fun y hy => ?_) x hx
            rcases List.mem_append.mp hy with h2 | h2
            · exact h y h2
            · simp only [List.mem_singleton] at h2
              rw [h2, hdd]
              simp
      · next hnd =>
        refine ih _ (fun y hy => ?_) x hx
        rcases List.mem_append.mp hy with h2 | h2
        · exact h y h2
        · simp only [List.mem_singleton] at h2
          rw [h2]
          intro hcon
          exact h1 (Or.inl hcon)

theorem pathClean_ne_empty (s : String) : pathClean s ≠ "" := by
  simp only [pathClean]
  split_ifs with h1 h2 h3 h4
  · intro h; have hd := congrArg String.data h; simp at hd
  · intro h; have hd := congrArg String.data h; simp at hd
  · intro h; have hd := congrArg String.data h; simp at hd
  · intro h; have hd := congrArg String.data h; simp at hd
  · intro h
    have hd := congrArg String.data h
    refine joinCh_ne_nil '/' _ h4
      (cleanSegsAux_mem_ne_nil _ _ [] (by simp)) ?_
    simpa using hd

theorem keywordOf_ne_empty (k : ChildKey) : keywordOf k ≠ "" := by
  cases k <;>
    (intro h
     have h2 := congrArg String.data h
     simp [keywordOf, String.data_append] at h2)

theorem pathJoin_ne_empty {p q : String} (hq : q ≠ "") : pathJoin p q ≠ "" := by
  simp only [pathJoin]
  split_ifs with h1 h2
  · exact absurd h1.2 hq
  · exact pathClean_ne_empty q
  · exact pathClean_ne_empty _

theorem walkChildrenWith_ptr_inv {σ : Type} (P : σ → Prop) (Q : String → Prop)
    (descendFn : String → Schema → σ → Option WErr × Schema × σ × List MutEvent)
    (vf : VisitorM σ)
    (hQ : ∀ p (k : ChildKey), Q p → Q (pathJoin p (keywordOf k)))
    (hd : ∀ p c st, Q p → P st → P (descendFn p c st).2.2.1)
    (hv : ∀ p c st, Q p → P st → P ((vf p c st).2.2)) :
    ∀ (ks : List ChildKey) (ptr : String) (s : Schema) (st : σ),
      Q ptr → P st → P ((walkChildrenWith descendFn vf ptr s st ks).2.2.1) := by
  intro ks
  induction ks with
  | nil => intro ptr s st _ hP; simpa [walkChildrenWith] using hP
  | cons k rest ih =>
    intro ptr s st hQp hP
    simp only [walkChildrenWith]
    split
    · exact ih ptr s st hQp hP
    · next c heq =>
        split
        · exact hv _ c st (hQ ptr k hQp) hP
        · exact hv _ c st (hQ ptr k hQp) hP
        · exact ih ptr _ _ hQp (hv _ c st (hQ ptr k hQp) hP)
        · split
          · exact hd _ _ _ (hQ ptr k hQp) (hv _ c st (hQ ptr k hQp) hP)
          · exact ih ptr _ _ hQp
              (hd _ _ _ (hQ ptr k hQp) (hv _ c st (hQ ptr k hQp) hP))

theorem walkRec_ptr_inv {σ : Type} (P : σ → Prop) (Q : String → Prop)
    (vf : VisitorM σ)
    (hQ : ∀ p (k : ChildKey), Q p → Q (pathJoin p (keywordOf k)))
    (hv : ∀ p c st, Q p → P st → P ((vf p c st).2.2)) :
    ∀ (fuel : Nat) (cancelled : Bool) (ptr : String) (s : Schema) (st : σ),
      Q ptr → P st → P ((walkRec fuel cancelled ptr s vf st).2.2.1) := by
  intro fuel
  induction fuel using Nat.strong_induction_on with
  | _ fuel ih =>
    intro cancelled ptr s st hQp hP
    rw [walkRec]
    cases cancelled with
    | true => simpa using hP
    | false =>
      simp only [Bool.false_eq_true, if_false]
      apply walkChildrenWith_ptr_inv P Q _ vf hQ ?_ hv _ ptr s st hQp hP
      intro p c st1 hQ1 h1
      cases fuel with
      | zero => exact h1
      | succ f => exact ih f (Nat.lt_succ_self f) false p c st1 hQ1 h1

theorem Walk_ptr_inv {σ : Type} (P : σ → Prop) (Q : String → Prop)
    (vf : VisitorM σ)
    (hQ : ∀ p (k : ChildKey), Q p → Q (pathJoin p (keywordOf k)))
    (hroot : Q "/")
    (hv : ∀ p c st, Q p → P st → P ((vf p c st).2.2)) :
    ∀ (fuel : Nat) (cancelled : Bool) (s : Schema) (st : σ), P st →
      P ((Walk fuel cancelled s vf st).2.2.1) := by
  intro fuel cancelled s st hP
  simp only [Walk]
  cases hcode : (vf "/" s st).1 with
  | fail e => exact hv "/" s st hroot hP
  | skip => exact hv "/" s st hroot hP
  | skipAll => exact hv "/" s st hroot hP
  | cont =>
    exact walkRec_ptr_inv P Q vf hQ hv fuel cancelled "/" _ _ hroot
      (hv "/" s st hroot hP)


/-- The well-formedness of one identifier record that `localLoad`'s first
pass relies on: a record without a plain URI is a resource root (its
canonical pointer URI is `base ++ "#"`), and a plain URI, when present,
contains `#`. -/
def PIdent (kv : String × Identifiers) : Prop :=
  (kv.2.canonResourcePlainURI = "" →
    kv.2.canonResourcePointerURI = kv.2.baseURI ++ "#") ∧
  (kv.2.canonResourcePlainURI = "" ∨ '#' ∈ kv.2.canonResourcePlainURI.data)

theorem idVisitWith_plain
    (sub : Schema → List (String × Identifiers) × Option String × List MutEvent)
    (base : GoURL)
    (hsub : ∀ s2, ∀ kv ∈ (sub s2).1, PIdent kv) :
    ∀ p s (st : IdSt), (∀ kv ∈ st.1, PIdent kv) →
      ∀ kv ∈ ((idVisitWith sub base p s st).2.2).1, PIdent kv := by
  intro p s st hst kv hkv
  simp only [idVisitWith] at hkv
  split at hkv
  · exact hst kv hkv
  · next hcond =>
    split at hkv
    · -- `$id` branch
      have hfold : ∀ kv2 ∈ (((sub (s.withId
          ((base.resolveReference (urlParse s.id)).toString))).1).foldl
            (fun acc kv3 =>
              alSet acc (p ++ kv3.1)
                { kv3.2 with enclosingResourceURIs :=
                    kv3.2.enclosingResourceURIs ++
                      [base.toString ++ "#" ++ p ++ kv3.1] }) st.1), PIdent kv2 := by
        refine foldl_alSet_values _ _ PIdent _ st.1 hst ?_
        intro b hb
        have hP := hsub _ b hb
        exact ⟨hP.1, hP.2⟩
      split_ifs at hkv with ha hb hb2
      · rcases mem_alSet _ _ _ kv hkv with h1 | h1
        · exact hfold kv h1
        · rw [h1]
          exact ⟨fun hpl => absurd hpl (append_hash_append_ne _ _),
            Or.inr (hash_mem_append _ _)⟩
      · rcases mem_alSet _ _ _ kv hkv with h1 | h1
        · exact hfold kv h1
        · rw [h1]
          exact ⟨fun hpl => absurd hpl (append_hash_append_ne _ _),
            Or.inr (hash_mem_append _ _)⟩
      · rcases mem_alSet _ _ _ kv hkv with h1 | h1
        · exact hfold kv h1
        · rw [h1]
          exact ⟨fun _ => rfl, Or.inl rfl⟩
      · rcases mem_alSet _ _ _ kv hkv with h1 | h1
        · exact hfold kv h1
        · rw [h1]
          exact ⟨fun _ => rfl, Or.inl rfl⟩
    · -- anchor-only branch: the anchor is necessarily non-empty here
      next hid =>
      have hanch : s.anchor ≠ "" := by
        intro hae
        have hide : s.id = "" := by
          by_contra hcon
          exact hid hcon
        exact hcond (Or.inr ⟨hide, hae⟩)
      split_ifs at hkv <;>
        first
          | exact absurd hanch (by assumption)
          | (rcases mem_alSet _ _ _ kv hkv with h1 | h1
             · exact hst kv h1
             · rw [h1]
               exact ⟨fun hpl => absurd hpl (append_hash_append_ne _ _),
                 Or.inr (hash_mem_append _ _)⟩)

theorem computeIdentifiers_plain :
    ∀ (fuel : Nat) (root : Schema), ∀ kv ∈ (computeIdentifiers fuel root).1,
      PIdent kv := by
  intro fuel
  induction fuel using Nat.strong_induction_on with
  | _ fuel ih =>
    intro root kv hkv
    cases fuel with
    | zero => simp [computeIdentifiers] at hkv
    | succ f =>
      simp only [computeIdentifiers] at hkv
      refine Walk_state_inv (σ := IdSt) (fun st => ∀ kv2 ∈ st.1, PIdent kv2)
        (idVisitWith (computeIdentifiers f) (urlParse root.id))
        (fun p c st hstp =>
          idVisitWith_plain _ _
            (fun s2 kv2 h2 => ih f (Nat.lt_succ_self f) s2 kv2 h2) p c st hstp)
        (f + 1) false root (([], []) : IdSt) (by simp) kv hkv

theorem idVisitWith_keys
    (sub : Schema → List (String × Identifiers) × Option String × List MutEvent)
    (base : GoURL) :
    ∀ p s (st : IdSt), p ≠ "" → (∀ kv ∈ st.1, kv.1 ≠ "/") →
      ∀ kv ∈ ((idVisitWith sub base p s st).2.2).1, kv.1 ≠ "/" := by
  intro p s st hp hst kv hkv
  simp only [idVisitWith] at hkv
  split at hkv
  · exact hst kv hkv
  · next hcond =>
    have hpr : p ≠ "/" := fun he => hcond (Or.inl he)
    split at hkv
    · split_ifs at hkv <;>
      · rcases mem_alSet _ _ _ kv hkv with h1 | h1
        · refine foldl_alSet_values _ _ (fun kv2 => kv2.1 ≠ "/") _ st.1 hst ?_ kv h1
          intro b _
          exact append_ne_root _ hp hpr
        · rw [h1]
          exact hpr
    · split_ifs at hkv <;>
      · rcases mem_alSet _ _ _ kv hkv with h1 | h1
        · exact hst kv h1
        · rw [h1]
          exact hpr

theorem computeIdentifiers_keys :
    ∀ (fuel : Nat) (root : Schema), ∀ kv ∈ (computeIdentifiers fuel root).1,
      kv.1 ≠ "/" := by
  intro fuel root kv hkv
  cases fuel with
  | zero => simp [computeIdentifiers] at hkv
  | succ f =>
    simp only [computeIdentifiers] at hkv
    refine Walk_ptr_inv (σ := IdSt) (fun st => ∀ kv2 ∈ st.1, kv2.1 ≠ "/")
      (fun ptr => ptr ≠ "")
      (idVisitWith (computeIdentifiers f) (urlParse root.id))
      (fun ptr k hptr => pathJoin_ne_empty (keywordOf_ne_empty k))
      (by intro h; have h2 := congrArg String.data h; simp at h2)
      (fun ptr c st hptr hstp => idVisitWith_keys _ _ ptr c st hptr hstp)
      (f + 1) false root (([], []) : IdSt) (by simp) kv hkv


/-- The local loader, queried with the resolved top-level reference of a
schema whose own `$id` round-trips and whose identifier records are
well-formed (`PIdent`) with fragment-free base URIs, either answers with
the prefetched root resource and the residual fragment pointer `#`, or
(only possible when the root `$id` is empty) falls through to the absent
next loader. -/
theorem localLoad_roundtrip
    (m : List (String × Identifiers)) (pf : List (String × Option Schema))
    (S : Schema) (u1 : GoURL)
    (hkeys : ∀ kv ∈ m, kv.1 ≠ "/")
    (hP : ∀ kv ∈ m, PIdent kv)
    (hB : ∀ kv ∈ m, '#' ∉ kv.2.baseURI.data)
    (hid : '#' ∉ S.id.data)
    (hfrag : u1.fragment = "")
    (hrt : u1.toString = S.id)
    (hpf : alGet pf S.id = some (some S)) :
    localLoad ⟨alSet m "/" ⟨S.id, "", S.id ++ "#", []⟩, pf⟩ none u1 =
      (.ok (some S), urlParse "#") ∨
    (S.id = "" ∧
      localLoad ⟨alSet m "/" ⟨S.id, "", S.id ++ "#", []⟩, pf⟩ none u1 =
        (.ok none, u1)) := by
  have hideq : alSet m "/" (⟨S.id, "", S.id ++ "#", []⟩ : Identifiers) =
      m ++ [("/", (⟨S.id, "", S.id ++ "#", []⟩ : Identifiers))] :=
    alSet_append m "/" _ (alGet_eq_none_of_keys m "/" hkeys)
  have hall : ∀ kv ∈ m ++ [("/", (⟨S.id, "", S.id ++ "#", []⟩ : Identifiers))],
      PIdent kv ∧ '#' ∉ kv.2.baseURI.data := by
    intro kv hkv
    rcases List.mem_append.mp hkv with h1 | h1
    · exact ⟨hP kv h1, hB kv h1⟩
    · have h2 := List.mem_singleton.mp h1
      subst h2
      exact ⟨⟨fun _ => rfl, Or.inl rfl⟩, hid⟩
  simp only [localLoad, hideq, noFrag_id hfrag, hrt, hfrag]
  cases hf : (m ++ [("/", (⟨S.id, "", S.id ++ "#", []⟩ : Identifiers))]).find?
      (fun kv => kv.2.canonResourcePlainURI = S.id) with
  | none =>
    simp only [hf]
    cases hf2 : (m ++ [("/", (⟨S.id, "", S.id ++ "#", []⟩ : Identifiers))]).find?
        (fun kv => kv.2.baseURI ++ "#" = kv.2.canonResourcePointerURI ∧
          kv.2.baseURI = S.id) with
    | none =>
      exfalso
      have hr := List.find?_eq_none.mp hf2
        ("/", (⟨S.id, "", S.id ++ "#", []⟩ : Identifiers)) (by simp)
      simp at hr
    | some kv2 =>
      have h2 := List.find?_some hf2
      simp only [decide_eq_true_eq] at h2
      simp only [hf2, h2.2, if_true, hpf, string_append_empty]
      left
      rfl
  | some kv =>
    have hmem := List.mem_of_find?_eq_some hf
    have hpl : kv.2.canonResourcePlainURI = S.id := by
      have hq := List.find?_some hf
      simp only [decide_eq_true_eq] at hq
      exact hq
    rcases hall kv hmem with ⟨⟨hinv1, hinv3⟩, hbase⟩
    rcases hinv3 with hpe | hph
    · have hSid : S.id = "" := by rw [← hpl, hpe]
      have hcp : kv.2.canonResourcePointerURI = kv.2.baseURI ++ "#" := hinv1 hpe
      have hfr : (urlParse kv.2.canonResourcePointerURI).fragment = "" := by
        rw [hcp]; exact urlParse_fragment_hash hbase
      by_cases hb : kv.2.baseURI = ""
      · simp only [hf, hb]
        cases hf2 : (m ++ [("/", (⟨S.id, "", S.id ++ "#", []⟩ : Identifiers))]).find?
            (fun kv3 => kv3.2.baseURI ++ "#" = kv3.2.canonResourcePointerURI ∧
              kv3.2.baseURI = S.id) with
        | none =>
          exfalso
          have hr := List.find?_eq_none.mp hf2
            ("/", (⟨S.id, "", S.id ++ "#", []⟩ : Identifiers)) (by simp)
          simp at hr
        | some kv2 =>
          have h2 := List.find?_some hf2
          simp only [decide_eq_true_eq] at h2
          simp only [hf2, h2.2, if_true, hpf, string_append_empty]
          left
          rfl
      · refine Or.inr ⟨hSid, ?_⟩
        simp only [hf, hfr, if_neg hb]
        cases halg : alGet pf kv.2.baseURI with
        | none => simp only [halg]
        | some s => simp only [halg]; rfl
    · rw [hpl] at hph
      exact absurd hph hid

/-- The body of `ResolveReference` maps both `"#"` and `""` back to the
schema itself whenever the schema has no top-level `$ref`, its `$id` is
fragment-free and round-trips through reference resolution, and every
computed identifier record is well-formed with a fragment-free base URI. -/
theorem resolveReferenceBody_roundtrip (sideLoadFn : SideLoadFn)
    (ciFn : Schema → List (String × Identifiers) × Option String × List MutEvent)
    (S : Schema) (href : S.ref = "")
    (hid : '#' ∉ S.id.data)
    (hkeys : ∀ kv ∈ (ciFn S).1, kv.1 ≠ "/")
    (hP : ∀ kv ∈ (ciFn S).1, PIdent kv)
    (hB : ∀ kv ∈ (ciFn S).1, '#' ∉ kv.2.baseURI.data)
    (hrt : (((urlParse S.id).resolveReference (urlParse S.id)).resolveReference
        (urlParse "#")).toString = S.id) :
    (resolveReferenceBody sideLoadFn ciFn {} "#" S).1 = .ok (some S) ∧
    (resolveReferenceBody sideLoadFn ciFn {} "" S).1 = .ok (some S) := by
  have hD : applyDefaults ({} : RConfig) S =
      { loader := none, root := some S, documentRoot := some S,
        ignoreRefs := false } := rfl
  have e2 : urlParse "" = urlParse "#" := rfl
  have e5 : getUnescapedPath (urlParse "#").fragment = [] := rfl
  have hideq : alSet (ciFn S).1 "/" (⟨S.id, "", S.id ++ "#", []⟩ : Identifiers) =
      (ciFn S).1 ++ [("/", (⟨S.id, "", S.id ++ "#", []⟩ : Identifiers))] :=
    alSet_append _ _ _ (alGet_eq_none_of_keys _ _ hkeys)
  have hfr1 : (urlParse S.id).fragment = "" := urlParse_fragment_of_not_mem hid
  have hfrag : (((urlParse S.id).resolveReference (urlParse S.id)).resolveReference
      (urlParse "#")).fragment = "" :=
    rr_fragment (rr_fragment hfr1 hfr1) rfl
  have hpf : alGet (prefetchLoopWith
      (fun p => resolveRefWith sideLoadFn (p.length + 1) { ignoreRefs := true }
        (some S) p 0 p)
      ((ciFn S).1 ++ [("/", (⟨S.id, "", S.id ++ "#", []⟩ : Identifiers))]) [] []).1
      S.id = some (some S) := by
    have hl := prefetch_last
      (fun p => resolveRefWith sideLoadFn (p.length + 1) { ignoreRefs := true }
        (some S) p 0 p)
      (ciFn S).1 [] [] ("/", (⟨S.id, "", S.id ++ "#", []⟩ : Identifiers)) rfl
    rw [show getUnescapedPath
        ("/", (⟨S.id, "", S.id ++ "#", []⟩ : Identifiers)).1 = ([] : List String)
      from rfl] at hl
    simp only [resolveRefWith_noref_exhausted, href] at hl
    exact hl
  constructor <;>
  · simp only [resolveReferenceBody, hD, Option.getD_some, e2, newLocalLoaderWith,
      hideq]
    have hllr := localLoad_roundtrip (ciFn S).1 _ S _ hkeys hP hB hid hfrag hrt hpf
    rw [hideq] at hllr
    rcases hllr with hL | ⟨hS, hR⟩
    · simp only [hL, href, ite_self, e5, List.length_nil,
        resolveRefWith_noref_exhausted]
      rfl
    · rw [hS] at hR ⊢
      rw [show ((urlParse "").resolveReference (urlParse "")).resolveReference
          (urlParse "#") = urlParse "#" from rfl] at hR ⊢
      simp only [hR, href, ite_self, e5, List.length_nil,
        resolveRefWith_noref_exhausted]
      rfl

/-- **C2** (corrected).  As stated the claim fails: with a top-level
`$ref` the resolver dereferences the reference once the pointer is
exhausted, so `resolve(S, "#")` returns the `$ref` target, not `S` (the
counterexample).  Amended: for every schema with no top-level `$ref` whose
`$id` is fragment-free and round-trips through `net/url` reference
resolution, and whose computed identifier records all have fragment-free
base URIs, resolving `"#"` returns `S` itself, and so does resolving
`""`. -/
theorem c2_amended_resolve_self (fuel : Nat) (S : Schema)
    (href : S.ref = "")
    (hid : '#' ∉ S.id.data)
    (hrt : (((urlParse S.id).resolveReference (urlParse S.id)).resolveReference
        (urlParse "#")).toString = S.id)
    (hids : ∀ kv ∈ (computeIdentifiers fuel S).1, '#' ∉ kv.2.baseURI.data) :
    (resolveReference fuel {} "#" S).1 = .ok (some S) ∧
    (resolveReference fuel {} "" S).1 = .ok (some S) := by
  rw [resolveReference_eq, resolveReference_eq]
  exact resolveReferenceBody_roundtrip _ (computeIdentifiers fuel) S href hid
    (computeIdentifiers_keys fuel S) (computeIdentifiers_plain fuel S) hids hrt

theorem c2_amended_witness :
    (resolveReference 5 {} "#" fxS6root).1 = .ok (some fxS6root) ∧
    (resolveReference 5 {} "" fxS6root).1 = .ok (some fxS6root) :=
  c2_amended_resolve_self 5 fxS6root rfl (by decide) rfl (by decide)

/-! ## C3: the walker log.  A logging no-op visitor and the canonical
pre-order slot enumeration. -/

/-- Setting a child slot back to the value it already holds is the
identity (the walker's `n.set(s2)` after a no-op visit). -/
theorem list_set_of_get {α : Type} :
    ∀ (l : List α) (i : Nat) (c : α), l.get? i = some c → l.set i c = l := by
  intro l
  induction l with
  | nil => intro i c h; cases i <;> simp [List.get?] at h
  | cons a t ih =>
    intro i c h
    cases i with
    | zero =>
      simp only [List.get?] at h
      injection h with h1
      simp only [List.set]
      rw [← h1]
    | succ j =>
      simp only [List.get?] at h
      simp only [List.set]
      rw [ih j c h]

theorem alSet_self {α : Type} :
    ∀ (m : List (String × α)) (n : String) (v : α), alGet m n = some v →
      alSet m n v = m := by
  intro m
  induction m with
  | nil => intro n v h; simp [alGet] at h
  | cons kv t ih =>
    intro n v h
    rcases kv with ⟨k0, v0⟩
    simp only [alGet] at h
    simp only [alSet]
    by_cases hk : k0 = n
    · rw [if_pos hk] at h
      injection h with h1
      rw [if_pos hk, ← h1]
    · rw [if_neg hk] at h
      rw [if_neg hk, ih n v h]

theorem setChild_getChild (s : Schema) (k : ChildKey) (c : Schema)
    (h : getChild s k = some c) : setChild s k c = s := by
  cases k <;> simp only [getChild] at h <;> simp only [setChild] <;>
    first
      | (rw [← h]; exact Schema.mk_core s)
      | (rw [list_set_of_get _ _ _ h]; exact Schema.mk_core s)
      | (rw [alSet_self _ _ _ h]; exact Schema.mk_core s)

/-- The no-op logging visitor: record every `(pointer, schema)` pair the
walker yields, change nothing, always continue. -/
def vfLog : VisitorM (List (String × Schema)) :=
  fun ptr s st => (.cont, s, st ++ [(ptr, s)])

/-- The specified visit order (spec: pre-order, one entry per subschema
slot, pointers built by concatenating keyword segments onto the parent
pointer). -/
def specSlots : Nat → String → Schema → List (String × Schema)
  | 0, ptr, s => [(ptr, s)]
  | f + 1, ptr, s =>
    (ptr, s) :: (nodesKeys s).flatMap (fun k =>
      match getChild s k with
      | none => []
      | some c => specSlots f (pathJoin ptr (keywordOf k)) c)

/-- `DepthLe n s`: the slot tree under `s` has height at most `n`
(a leaf has every positive bound). -/
inductive DepthLe : Nat → Schema → Prop where
  | mk (n : Nat) (s : Schema) :
      (∀ k c, getChild s k = some c → DepthLe n c) → DepthLe (n + 1) s

theorem specSlots_succ (f : Nat) (ptr : String) (s : Schema) :
    specSlots (f + 1) ptr s =
      (ptr, s) :: (nodesKeys s).flatMap (fun k =>
        match getChild s k with
        | none => []
        | some c => specSlots f (pathJoin ptr (keywordOf k)) c) := rfl


/-- The child loop under the logging visitor: with a descend function that
returns cleanly and appends a known tail to the log, the loop returns the
schema unchanged and appends, per present child, the child's entry followed
by that tail. -/
theorem walkChildrenWith_log
    (descendFn : String → Schema → List (String × Schema) →
      Option WErr × Schema × List (String × Schema) × List MutEvent)
    (P : Schema → Prop) (tailOf : String → Schema → List (String × Schema))
    (hd : ∀ cptr c st1, P c → ∃ ev, descendFn cptr c st1 =
      (none, c, st1 ++ tailOf cptr c, ev)) :
    ∀ (keys : List ChildKey) (ptr : String) (s : Schema)
      (st : List (String × Schema)),
      (∀ k ∈ keys, ∀ c, getChild s k = some c → P c) →
      ∃ ev, walkChildrenWith descendFn vfLog ptr s st keys =
        (none, s, st ++ keys.flatMap (fun k =>
          match getChild s k with
          | none => []
          | some c => (pathJoin ptr (keywordOf k), c) ::
              tailOf (pathJoin ptr (keywordOf k)) c), ev) := by
  intro keys
  induction keys with
  | nil =>
    intro ptr s st _
    exact ⟨[], by simp [walkChildrenWith]⟩
  | cons k rest ih =>
    intro ptr s st hkeys
    simp only [walkChildrenWith]
    cases hgc : getChild s k with
    | none =>
      rcases ih ptr s st (fun k2 hk2 => hkeys k2 (List.mem_cons_of_mem _ hk2))
        with ⟨ev, hev⟩
      refine ⟨ev, ?_⟩
      rw [hev]
      simp [hgc]
    | some c =>
      have hPc := hkeys k (List.mem_cons_self _ _) c hgc
      rcases hd (pathJoin ptr (keywordOf k)) c
        (st ++ [(pathJoin ptr (keywordOf k), c)]) hPc with ⟨ev2, hev2⟩
      rcases ih ptr s
        (st ++ [(pathJoin ptr (keywordOf k), c)] ++
          tailOf (pathJoin ptr (keywordOf k)) c)
        (fun k2 hk2 => hkeys k2 (List.mem_cons_of_mem _ hk2)) with ⟨ev3, hev3⟩
      refine ⟨(c, c) :: (ev2 ++ ev3), ?_⟩
      simp only [hgc, vfLog, hev2, setChild_getChild s k c hgc, hev3]
      simp [hgc, List.append_assoc]

/-- `walkRec` under the logging visitor, given enough fuel for the subtree:
no error, the schema unchanged, and the log extended by the pre-order
enumeration of every child subtree. -/
theorem walkRec_log :
    ∀ (fuel : Nat) (ptr : String) (s : Schema) (st : List (String × Schema)),
      (∀ k c, getChild s k = some c → DepthLe fuel c) →
      ∃ ev, walkRec fuel false ptr s vfLog st =
        (none, s, st ++ (nodesKeys s).flatMap (fun k =>
          match getChild s k with
          | none => []
          | some c => specSlots fuel (pathJoin ptr (keywordOf k)) c), ev) := by
  intro fuel
  induction fuel using Nat.strong_induction_on with
  | _ fuel ih =>
    intro ptr s st hch
    rw [walkRec]
    simp only [Bool.false_eq_true, if_false]
    cases fuel with
    | zero =>
      rcases walkChildrenWith_log
        (fun cptr c st1 => (some .fuelOut, c, st1, []))
        (DepthLe 0) (fun _ _ => [])
        (fun cptr c st1 h => nomatch h)
        (nodesKeys s) ptr s st (fun k _ c h => hch k c h) with ⟨ev, hev⟩
      exact ⟨ev, by rw [hev]; rfl⟩
    | succ f =>
      rcases walkChildrenWith_log
        (fun cptr c st1 =>
          match f + 1 with
          | 0 => (some .fuelOut, c, st1, [])
          | f2 + 1 => walkRec f2 false cptr c vfLog st1)
        (DepthLe (f + 1))
        (fun cptr c => (nodesKeys c).flatMap (fun k =>
          match getChild c k with
          | none => []
          | some c2 => specSlots f (pathJoin cptr (keywordOf k)) c2))
        (fun cptr c st1 h => by
          rcases h with ⟨_, _, hch2⟩
          exact ih f (Nat.lt_succ_self f) cptr c st1 hch2)
        (nodesKeys s) ptr s st (fun k _ c h => hch k c h) with ⟨ev, hev⟩
      exact ⟨ev, by rw [hev]; rfl⟩

/-- `Walk` under the logging visitor: success, the root unchanged, and the
log is exactly the pre-order slot enumeration starting at `"/"`. -/
theorem Walk_log (fuel : Nat) (root : Schema)
    (hdep : DepthLe (fuel + 1) root) :
    ∃ ev, Walk fuel false root vfLog [] =
      (none, root, specSlots (fuel + 1) "/" root, ev) := by
  have hch : ∀ k c, getChild root k = some c → DepthLe fuel c := by
    rcases hdep with ⟨_, _, h⟩
    exact h
  rcases walkRec_log fuel "/" root [("/", root)] hch with ⟨ev, hev⟩
  refine ⟨(root, root) :: ev, ?_⟩
  show (fun out => (out.1, out.2.1, out.2.2.1,
      ((root, root) :: out.2.2.2 : List MutEvent)))
      (walkRec fuel false "/" root vfLog ([] ++ [("/", root)])) =
    (none, root, specSlots (fuel + 1) "/" root, (root, root) :: ev)
  rw [show ([] ++ [("/", root)] : List (String × Schema)) = [("/", root)] from rfl,
    hev, specSlots_succ]
  simp [List.singleton_append]


theorem segsOfKey_ne_nil (k : ChildKey) : segsOfKey k ≠ [] := by
  cases k <;> simp [segsOfKey]

/-- Every pointer segment a present child slot contributes is benign, when
the schema's map keys are. -/
theorem segsOfKey_good (s : Schema) (k : ChildKey) (c : Schema)
    (hgc : getChild s k = some c)
    (hkeys : ∀ kv ∈ s.defs ++ s.dependentSchemas ++ s.properties ++
      s.patternProperties, goodKey kv.1) :
    ∀ x ∈ (segsOfKey k).map String.data, goodSegChars x := by
  cases k with
  | defsK n =>
    have hmem := alGet_mem _ _ _ hgc
    have hg : goodKey n := hkeys (n, c) (by
      simp only [Schema.defs, Schema.dependentSchemas, Schema.properties,
        Schema.patternProperties, List.mem_append]
      exact Or.inl (Or.inl (Or.inl hmem)))
    intro x hx
    simp only [segsOfKey, List.map, List.mem_cons, List.mem_singleton] at hx
    rcases hx with h | h | h
    · rw [h]; decide
    · rw [h]; exact hg
    · exact absurd h (by simp)
  | depSchemasK n =>
    have hmem := alGet_mem _ _ _ hgc
    have hg : goodKey n := hkeys (n, c) (by
      simp only [Schema.defs, Schema.dependentSchemas, Schema.properties,
        Schema.patternProperties, List.mem_append]
      exact Or.inl (Or.inl (Or.inr hmem)))
    intro x hx
    simp only [segsOfKey, List.map, List.mem_cons, List.mem_singleton] at hx
    rcases hx with h | h | h
    · rw [h]; decide
    · rw [h]; exact hg
    · exact absurd h (by simp)
  | propsK n =>
    have hmem := alGet_mem _ _ _ hgc
    have hg : goodKey n := hkeys (n, c) (by
      simp only [Schema.defs, Schema.dependentSchemas, Schema.properties,
        Schema.patternProperties, List.mem_append]
      exact Or.inl (Or.inr hmem))
    intro x hx
    simp only [segsOfKey, List.map, List.mem_cons, List.mem_singleton] at hx
    rcases hx with h | h | h
    · rw [h]; decide
    · rw [h]; exact hg
    · exact absurd h (by simp)
  | patPropsK n =>
    have hmem := alGet_mem _ _ _ hgc
    have hg : goodKey n := hkeys (n, c) (by
      simp only [Schema.defs, Schema.dependentSchemas, Schema.properties,
        Schema.patternProperties, List.mem_append]
      exact Or.inr hmem)
    intro x hx
    simp only [segsOfKey, List.map, List.mem_cons, List.mem_singleton] at hx
    rcases hx with h | h | h
    · rw [h]; decide
    · rw [h]; exact hg
    · exact absurd h (by simp)
  | allOfK i =>
    intro x hx
    simp only [segsOfKey, List.map, List.mem_cons, List.mem_singleton] at hx
    rcases hx with h | h | h
    · rw [h]; decide
    · rw [h]; exact goodSegChars_toString_nat i
    · exact absurd h (by simp)
  | anyOfK i =>
    intro x hx
    simp only [segsOfKey, List.map, List.mem_cons, List.mem_singleton] at hx
    rcases hx with h | h | h
    · rw [h]; decide
    · rw [h]; exact goodSegChars_toString_nat i
    · exact absurd h (by simp)
  | oneOfK i =>
    intro x hx
    simp only [segsOfKey, List.map, List.mem_cons, List.mem_singleton] at hx
    rcases hx with h | h | h
    · rw [h]; decide
    · rw [h]; exact goodSegChars_toString_nat i
    · exact absurd h (by simp)
  | prefixItemsK i =>
    intro x hx
    simp only [segsOfKey, List.map, List.mem_cons, List.mem_singleton] at hx
    rcases hx with h | h | h
    · rw [h]; decide
    · rw [h]; exact goodSegChars_toString_nat i
    · exact absurd h (by simp)
  | notK => intro x hx; simp only [segsOfKey, List.map, List.mem_singleton] at hx; rw [hx]; decide
  | ifK => intro x hx; simp only [segsOfKey, List.map, List.mem_singleton] at hx; rw [hx]; decide
  | thenK => intro x hx; simp only [segsOfKey, List.map, List.mem_singleton] at hx; rw [hx]; decide
  | elseK => intro x hx; simp only [segsOfKey, List.map, List.mem_singleton] at hx; rw [hx]; decide
  | itemsK => intro x hx; simp only [segsOfKey, List.map, List.mem_singleton] at hx; rw [hx]; decide
  | containsK => intro x hx; simp only [segsOfKey, List.map, List.mem_singleton] at hx; rw [hx]; decide
  | addPropsK => intro x hx; simp only [segsOfKey, List.map, List.mem_singleton] at hx; rw [hx]; decide
  | propNamesK => intro x hx; simp only [segsOfKey, List.map, List.mem_singleton] at hx; rw [hx]; decide
  | unevalItemsK => intro x hx; simp only [segsOfKey, List.map, List.mem_singleton] at hx; rw [hx]; decide
  | unevalPropsK => intro x hx; simp only [segsOfKey, List.map, List.mem_singleton] at hx; rw [hx]; decide
  | contentK => intro x hx; simp only [segsOfKey, List.map, List.mem_singleton] at hx; rw [hx]; decide

/-- Every entry of the slot enumeration is a descendant slot: its pointer
extends the enclosing one by its benign relative segments, and the schema
it carries is reachable by those segments. -/
theorem specSlots_entries :
    ∀ (fuel : Nat) (s : Schema) (segs : List (List Char)),
      Benign s → (∀ x ∈ segs, goodSegChars x) →
      ∀ p t, (p, t) ∈ specSlots fuel (ptrOfSegs segs) s →
        ∃ rel : List String, p = ptrOfSegs (segs ++ rel.map String.data) ∧
          (∀ x ∈ rel.map String.data, goodSegChars x) ∧ Desc s rel t := by
  intro fuel
  induction fuel with
  | zero =>
    intro s segs hb hsegs p t hmem
    simp only [specSlots, List.mem_singleton] at hmem
    rcases Prod.mk.injEq .. ▸ hmem with ⟨h1, h2⟩
    refine ⟨[], ?_, by simp, h2 ▸ Desc.refl s⟩
    rw [List.map_nil, List.append_nil]
    exact h1
  | succ f ih =>
    intro s segs hb hsegs p t hmem
    rw [specSlots_succ] at hmem
    rcases List.mem_cons.mp hmem with h1 | h1
    · rcases Prod.mk.injEq .. ▸ h1 with ⟨h2, h3⟩
      refine ⟨[], ?_, by simp, h3 ▸ Desc.refl s⟩
      rw [List.map_nil, List.append_nil]
      exact h2
    · rcases List.mem_flatMap.mp h1 with ⟨k, hk, h2⟩
      cases hgc : getChild s k with
      | none => rw [hgc] at h2; simp at h2
      | some c =>
        rw [hgc] at h2
        have hbc : Benign c := by
          rcases hb with ⟨_, _, _, _, _, _, hch⟩
          exact hch k c hgc
        have hkeysS : ∀ kv ∈ s.defs ++ s.dependentSchemas ++ s.properties ++
            s.patternProperties, goodKey kv.1 := by
          rcases hb with ⟨_, _, _, _, _, hkeys, _⟩
          exact hkeys
        have hgood := segsOfKey_good s k c hgc hkeysS
        have hpj : pathJoin (ptrOfSegs segs) (keywordOf k) =
            ptrOfSegs (segs ++ (segsOfKey k).map String.data) := by
          rw [keywordOf_eq_join]
          exact pathJoin_benign segs _ hsegs hgood
            (by simp [segsOfKey_ne_nil k])
        rw [hpj] at h2
        rcases ih c (segs ++ (segsOfKey k).map String.data) hbc
          (by
            intro x hx
            rcases List.mem_append.mp hx with h | h
            · exact hsegs x h
            · exact hgood x h)
          p t h2 with ⟨rel2, hp2, hg2, hdesc2⟩
        refine ⟨segsOfKey k ++ rel2, ?_, ?_, Desc.step s k c rel2 t hgc hdesc2⟩
        · rw [hp2, List.map_append, List.append_assoc]
        · intro x hx
          rw [List.map_append] at hx
          rcases List.mem_append.mp hx with h | h
          · exact hgood x h
          · exact hg2 x h


/-- A `$defs` key containing `/`: the walker does not escape it. -/
def fxC3root : Schema := .mk { defs := [("ba/r", Schema.empty)] }

theorem benign_empty : Benign Schema.empty := by
  refine Benign.mk Schema.empty rfl rfl rfl rfl ?_ ?_
  · intro kv hkv
    simp [Schema.empty, Schema.defs, Schema.dependentSchemas, Schema.properties,
      Schema.patternProperties] at hkv
  · intro k c h
    exfalso
    cases k <;> simp [getChild, Schema.empty, alGet] at h

/-- A small benign fixture with one single-schema slot and one map slot. -/
def fxC3w : Schema := .mk { notS := some Schema.empty, defs := [("leaf", Schema.empty)] }

theorem fxC3w_child : ∀ (k : ChildKey) (c : Schema),
    getChild fxC3w k = some c → c = Schema.empty := by
  intro k c h
  cases k with
  | notK =>
    simp only [getChild, fxC3w, Schema.core_mk] at h
    injection h with h1
    exact h1.symm
  | defsK n =>
    simp only [getChild, fxC3w, Schema.core_mk, alGet] at h
    split at h
    · injection h with h1; exact h1.symm
    · exact absurd h (by simp)
  | allOfK i => exact absurd h (by simp [getChild, fxC3w])
  | anyOfK i => exact absurd h (by simp [getChild, fxC3w])
  | oneOfK i => exact absurd h (by simp [getChild, fxC3w])
  | prefixItemsK i => exact absurd h (by simp [getChild, fxC3w])
  | depSchemasK n => exact absurd h (by simp [getChild, fxC3w, alGet])
  | propsK n => exact absurd h (by simp [getChild, fxC3w, alGet])
  | patPropsK n => exact absurd h (by simp [getChild, fxC3w, alGet])
  | ifK => exact absurd h (by simp [getChild, fxC3w])
  | thenK => exact absurd h (by simp [getChild, fxC3w])
  | elseK => exact absurd h (by simp [getChild, fxC3w])
  | itemsK => exact absurd h (by simp [getChild, fxC3w])
  | containsK => exact absurd h (by simp [getChild, fxC3w])
  | addPropsK => exact absurd h (by simp [getChild, fxC3w])
  | propNamesK => exact absurd h (by simp [getChild, fxC3w])
  | unevalItemsK => exact absurd h (by simp [getChild, fxC3w])
  | unevalPropsK => exact absurd h (by simp [getChild, fxC3w])
  | contentK => exact absurd h (by simp [getChild, fxC3w])

theorem fxC3w_benign : Benign fxC3w := by
  refine Benign.mk fxC3w rfl rfl rfl rfl ?_ ?_
  · intro kv hkv
    simp only [fxC3w, Schema.defs, Schema.dependentSchemas, Schema.properties,
      Schema.patternProperties, Schema.core_mk, List.append_nil,
      List.mem_singleton] at hkv
    rw [hkv]
    decide
  · intro k c h
    rw [fxC3w_child k c h]
    exact benign_empty

theorem fxC3w_depth : DepthLe 2 fxC3w :=
  DepthLe.mk 1 fxC3w (fun k c h => by
    rw [fxC3w_child k c h]
    exact DepthLe.mk 0 Schema.empty (fun k2 c2 h2 => by
      exfalso
      cases k2 <;> simp [getChild, Schema.empty, alGet] at h2))

/-- **C3** (corrected).  As stated the claim fails: the walker builds
pointers by plain concatenation and never RFC 6901-escapes map keys, so for
a `$defs` key containing `/` the yielded pointer does not resolve back to
the visited subschema (the counterexample).  Amended — restricted to trees
with no `$ref`, no `unevaluatedItems`/`unevaluatedProperties`/
`contentSchema` members (the resolver cannot navigate those, see C7), and
map keys that are non-empty, free of `/` and `~` (either would need the
RFC 6901 escaping the walker never applies, and a raw `~` is outside RFC
6901's pointer grammar), and not `.` or `..` (which `path.Join`
collapses) —:
walking with the no-op logging visitor succeeds, leaves the root unchanged,
logs exactly the pre-order slot enumeration (the root first at `"/"`, every
parent strictly before its descendants, one entry per present slot in the
source's `nodes` order), and every logged pointer, after unescaping,
resolves from the root back to the logged subschema. -/
theorem c3_amended_walker_complete (fuel : Nat) (root : Schema)
    (hb : Benign root) (hdep : DepthLe (fuel + 1) root) :
    (∃ ev, Walk fuel false root vfLog [] =
      (none, root, specSlots (fuel + 1) "/" root, ev)) ∧
    (specSlots (fuel + 1) "/" root).head? = some ("/", root) ∧
    (∀ (fuel2 : Nat) (p : String) (t : Schema),
      (p, t) ∈ specSlots (fuel + 1) "/" root →
      (resolveRef fuel2 {} (some root) (getUnescapedPath p) 0).1 =
        .ok (some t)) := by
  refine ⟨Walk_log fuel root hdep, by rw [specSlots_succ]; rfl, ?_⟩
  intro fuel2 p t hmem
  have hmem2 : (p, t) ∈ specSlots (fuel + 1) (ptrOfSegs []) root := hmem
  rcases specSlots_entries (fuel + 1) root [] hb (by simp) p t hmem2 with
    ⟨rel, hp, hg, hdesc⟩
  have hget : getUnescapedPath p = rel := by
    rw [hp, List.nil_append, getUnescapedPath_ptrOfSegs _ hg, List.map_map,
      show String.mk ∘ String.data = (id : String → String) from
        funext fun x => rfl,
      List.map_id]
  rw [hget]
  show (resolveRefWith (sideLoadAt fuel2) ((rel.drop 0).length + 1) {}
    (some root) rel 0 (rel.drop 0)).1 = .ok (some t)
  rw [List.drop_zero]
  exact desc_resolve (sideLoadAt fuel2) root rel t hdesc hb (rel.length + 1)
    le_rfl {} rel 0

theorem c3_counterexample :
    (Walk 1 false fxC3root vfLog []).2.2.1 =
      [("/", fxC3root), ("/$defs/ba/r", Schema.empty)] ∧
    (resolveRef 1 {} (some fxC3root) (getUnescapedPath "/$defs/ba/r") 0).1 =
      .error (.noSchemaAt ["$defs", "ba"]) :=
  ⟨rfl, rfl⟩

theorem c3_amended_witness :
    (∃ ev, Walk 1 false fxC3w vfLog [] =
      (none, fxC3w, specSlots 2 "/" fxC3w, ev)) ∧
    (specSlots 2 "/" fxC3w).head? = some ("/", fxC3w) ∧
    (∀ (fuel2 : Nat) (p : String) (t : Schema),
      (p, t) ∈ specSlots 2 "/" fxC3w →
      (resolveRef fuel2 {} (some fxC3w) (getUnescapedPath p) 0).1 =
        .ok (some t)) :=
  c3_amended_walker_complete 1 fxC3w fxC3w_benign fxC3w_depth

end JsonSchemaProof
